import Mathlib

/-!
Verification of the filesort external sorter (joe-skb7/filesort).

Shallow embedding of:
- `src/algo/pmsort.c` (parallel merge sort; the worker threads are modelled
  sequentially, which is faithful because the workers act on pairwise disjoint
  index ranges of the shared array and are all joined before the cascade runs);
- `src/algo/kmerge.c` and the binary min-heap it uses;
- the orchestration in `src/main.c` together with `str2int` from the tools module.

Machine `int32_t` values are modelled as `Int`, with explicit range checks where
the code performs them.  Loops and recursions are written with explicit fuel so
that every definition evaluates by kernel reduction; every wrapper supplies fuel
that provably dominates the loop measure, so the fuel-out fallbacks are
unreachable at the call sites.
-/

namespace Filesort

/-- Core of `pmsort_merge` (and of any textbook merge): combine two lists by
repeatedly taking the smaller head; ties favour the left list, exactly as the
comparison `left_array[i] <= right_array[j]` does in the C code.  Fuel-structural:
`fuel = l.length + r.length` always suffices, and on fuel exhaustion the
remaining lists are appended, so the result is a permutation of `l ++ r`
unconditionally. -/
def cmerge : Nat → List Int → List Int → List Int
  | 0, l, r => l ++ r
  | _ + 1, [], r => r
  | _ + 1, a :: l, [] => a :: l
  | fuel + 1, a :: l, b :: r =>
    if a ≤ b then a :: cmerge fuel l (b :: r) else b :: cmerge fuel (a :: l) r

/-- The merge with always-sufficient fuel. -/
def mergeLists (l r : List Int) : List Int := cmerge (l.length + r.length) l r

theorem cmerge_perm (fuel : Nat) : ∀ l r : List Int, (cmerge fuel l r).Perm (l ++ r) := by
  induction fuel with
  | zero => intro l r; exact List.Perm.refl _
  | succ fuel ih =>
    intro l r
    match l, r with
    | [], r => simp [cmerge]
    | a :: l, [] => simp [cmerge]
    | a :: l, b :: r =>
      simp only [cmerge]
      split
      · exact (ih l (b :: r)).cons a
      · exact ((ih (a :: l) r).cons b).trans List.perm_middle.symm

theorem mergeLists_perm (l r : List Int) : (mergeLists l r).Perm (l ++ r) :=
  cmerge_perm _ l r

theorem cmerge_sorted (fuel : Nat) :
    ∀ l r : List Int, l.length + r.length ≤ fuel →
      l.Sorted (· ≤ ·) → r.Sorted (· ≤ ·) → (cmerge fuel l r).Sorted (· ≤ ·) := by
  induction fuel with
  | zero =>
    intro l r hf _ _
    have hl : l = [] := List.eq_nil_of_length_eq_zero (by omega)
    have hr : r = [] := List.eq_nil_of_length_eq_zero (by omega)
    subst hl; subst hr; simp [cmerge]
  | succ fuel ih =>
    intro l r hf hl hr
    match l, r with
    | [], r => simpa [cmerge] using hr
    | a :: l, [] => simpa [cmerge] using hl
    | a :: l, b :: r =>
      rw [List.sorted_cons] at hl hr
      simp only [cmerge]
      split
      · rename_i hab
        rw [List.sorted_cons]
        refine ⟨?_, ih l (b :: r) (by simp at hf ⊢; omega) hl.2 (List.sorted_cons.mpr hr)⟩
        intro x hx
        have hx2 : x ∈ l ++ b :: r := (cmerge_perm fuel l (b :: r)).mem_iff.mp hx
        rcases List.mem_append.mp hx2 with h1 | h2
        · exact hl.1 x h1
        · rcases List.mem_cons.mp h2 with rfl | h3
          · exact hab
          · exact le_trans hab (hr.1 x h3)
      · rename_i hab
        have hba : b ≤ a := le_of_not_le hab
        rw [List.sorted_cons]
        refine ⟨?_, ih (a :: l) r (by simp at hf ⊢; omega) (List.sorted_cons.mpr hl) hr.2⟩
        intro x hx
        have hx2 : x ∈ (a :: l) ++ r := (cmerge_perm fuel (a :: l) r).mem_iff.mp hx
        rcases List.mem_append.mp hx2 with h1 | h2
        · rcases List.mem_cons.mp h1 with rfl | h3
          · exact hba
          · exact le_trans hba (hl.1 x h3)
        · exact hr.1 x h2

theorem mergeLists_sorted {l r : List Int} (hl : l.Sorted (· ≤ ·))
    (hr : r.Sorted (· ≤ ·)) : (mergeLists l r).Sorted (· ≤ ·) :=
  cmerge_sorted _ l r le_rfl hl hr

theorem cmerge_append_of_sorted (fuel : Nat) :
    ∀ l r : List Int, (l ++ r).Sorted (· ≤ ·) → cmerge fuel l r = l ++ r := by
  induction fuel with
  | zero => intro l r _; rfl
  | succ fuel ih =>
    intro l r h
    match l, r with
    | [], r => simp [cmerge]
    | a :: l, [] => simp [cmerge]
    | a :: l, b :: r =>
      simp only [List.cons_append, List.sorted_cons] at h
      have hab : a ≤ b := h.1 b (by simp)
      simp only [cmerge, if_pos hab, List.cons_append]
      rw [ih l (b :: r) h.2]

theorem mergeLists_append_of_sorted {l r : List Int}
    (h : (l ++ r).Sorted (· ≤ ·)) : mergeLists l r = l ++ r :=
  cmerge_append_of_sorted _ l r h

/-! ## pmsort.c -/

/-- `pmsort_merge` from pmsort.c: merge the adjacent sorted runs
`arr[left..middle]` and `arr[middle+1..right]` (inclusive C index ranges) back
into the array.  The C code copies the two ranges into temporary arrays
(`left_length = middle - left + 1`, `right_length = right - middle` elements)
and writes the merged sequence over `arr[left ..]`; elements outside the
written range are untouched. -/
def pmsort_merge (arr : List Int) (left middle right : Nat) : List Int :=
  let left_length := middle - left + 1
  let right_length := right - middle
  let left_array := (arr.drop left).take left_length
  let right_array := (arr.drop (middle + 1)).take right_length
  arr.take left ++ mergeLists left_array right_array
    ++ arr.drop (left + left_length + right_length)

/-- `pmsort_merge_sort` from pmsort.c: recursive merge sort of `arr[left..right]`.
Fuel-structural; any `fuel ≥ right - left + 1` suffices because each recursive
call strictly shrinks the range. -/
def pmsort_merge_sort : Nat → List Int → Nat → Nat → List Int
  | 0, arr, _, _ => arr
  | fuel + 1, arr, left, right =>
    if left < right then
      let middle := left + (right - left) / 2
      let a1 := pmsort_merge_sort fuel arr left middle
      let a2 := pmsort_merge_sort fuel a1 (middle + 1) right
      pmsort_merge a2 left middle right
    else arr

/-- `pmsort_thread_merge_sort` from pmsort.c for worker `thread_id`: sort the
worker's sub-range `[thread_id * npt, (thread_id+1) * npt - 1]`, with the last
worker additionally absorbing the `offset` trailing elements.  The source calls
the sequential merge sort twice (on `[left, right]` and `[left+1, right]`) and
then merges `[left, middle]` with `[middle+1, right]`; the redundancy is
preserved verbatim. -/
def pmsort_thread_merge_sort (npt offset num_threads : Nat) (arr : List Int)
    (thread_id : Nat) : List Int :=
  let left := thread_id * npt
  let right0 := (thread_id + 1) * npt - 1
  let right := if thread_id = num_threads - 1 then right0 + offset else right0
  let middle := left + (right - left) / 2
  if left < right then
    let a1 := pmsort_merge_sort (right - left + 1) arr left right
    let a2 := pmsort_merge_sort (right - left + 1) a1 (left + 1) right
    pmsort_merge a2 left middle right
  else arr

/-- The `for (i = 0; i < number; i += 2)` loop of `pmsort_merge_array_sections`.
On the pass with a given `aggregation`, unit `j` spans `npt * aggregation`
indices; adjacent units `i, i+1` are merged, and the right boundary is clamped
down to `len - 1` when it would exceed the array.  Fuel-structural; the loop
performs at most `number / 2 + 1` iterations so `fuel = number + 1` suffices. -/
def pmsort_sections_loop (npt aggregation number len : Nat) :
    Nat → List Int → Nat → List Int
  | 0, arr, _ => arr
  | fuel + 1, arr, i =>
    if i < number then
      let left := i * (npt * aggregation)
      let right := (i + 2) * npt * aggregation - 1
      let middle := left + npt * aggregation - 1
      let right := if right ≥ len then len - 1 else right
      pmsort_sections_loop npt aggregation number len fuel
        (pmsort_merge arr left middle right) (i + 2)
    else arr

/-- `pmsort_merge_array_sections` from pmsort.c: the pairwise merge cascade,
halving `number` and doubling `aggregation` until a single unit remains.
`fuel = number` (the initial thread count) dominates the recursion depth. -/
def pmsort_merge_array_sections (npt len : Nat) :
    Nat → List Int → Nat → Nat → List Int
  | 0, arr, _, _ => arr
  | fuel + 1, arr, number, aggregation =>
    let arr1 := pmsort_sections_loop npt aggregation number len (number + 1) arr 0
    if number / 2 ≥ 1 then
      pmsort_merge_array_sections npt len fuel arr1 (number / 2) (aggregation * 2)
    else arr1

/-- `pmsort_sort` from pmsort.c.  `len == 0` is excluded by `assert(len > 0)` in
the source; `len == 1` returns immediately; thread counts above `len` are
clamped.  The worker threads write to pairwise disjoint index ranges and are all
joined before the cascade, so the parallel phase is a sequential fold over the
workers. -/
def pmsort_sort (arr : List Int) (num_threads : Nat) : List Int :=
  let len := arr.length
  if len ≤ 1 then arr
  else
    let num_threads := if num_threads > len then len else num_threads
    let npt := len / num_threads
    let offset := len % num_threads
    let arr1 := (List.range num_threads).foldl
      (pmsort_thread_merge_sort npt offset num_threads) arr
    pmsort_merge_array_sections npt len num_threads arr1 num_threads 1

example : pmsort_sort [1, 0, 0, 0, 0] 3 = [0, 0, 0, 1, 0] := by decide
example : pmsort_sort [9, 1, 0, 2, 2] 3 = [0, 1, 2, 9, 2] := by decide
example : pmsort_sort [3, 1, 2] 2 = [1, 2, 3] := by decide
example : pmsort_sort [5, 4, 3, 2, 1, 0] 4 = [0, 1, 2, 3, 4, 5] := by decide

/-! ### pmsort is a permutation, and is the identity on sorted input -/

theorem pmsort_merge_eq_parts (arr : List Int) (left middle right : Nat)
    (h : left ≤ middle) :
    pmsort_merge arr left middle right =
      arr.take left ++
        (mergeLists ((arr.drop left).take (middle - left + 1))
          (((arr.drop left).drop (middle - left + 1)).take (right - middle)) ++
         (arr.drop left).drop ((middle - left + 1) + (right - middle))) := by
  have hra : arr.drop (middle + 1) = (arr.drop left).drop (middle - left + 1) := by
    rw [List.drop_drop]
    congr 1
    omega
  have hdrop : arr.drop (left + (middle - left + 1) + (right - middle)) =
      (arr.drop left).drop ((middle - left + 1) + (right - middle)) := by
    rw [List.drop_drop]
    congr 1
    omega
  simp only [pmsort_merge, hra, hdrop, List.append_assoc]

theorem pmsort_merge_perm (arr : List Int) (left middle right : Nat)
    (h : left ≤ middle) : (pmsort_merge arr left middle right).Perm arr := by
  rw [pmsort_merge_eq_parts arr left middle right h]
  have key : ((arr.drop left).take (middle - left + 1) ++
      ((arr.drop left).drop (middle - left + 1)).take (right - middle)) =
      (arr.drop left).take ((middle - left + 1) + (right - middle)) :=
    (List.take_add ..).symm
  refine List.Perm.trans (List.Perm.append_left _
    (List.Perm.append (mergeLists_perm _ _) (List.Perm.refl _))) ?_
  rw [key, List.take_append_drop, List.take_append_drop]

theorem pmsort_merge_eq_of_sorted {arr : List Int} (left middle right : Nat)
    (h : left ≤ middle) (hs : arr.Sorted (· ≤ ·)) :
    pmsort_merge arr left middle right = arr := by
  rw [pmsort_merge_eq_parts arr left middle right h]
  have key : ((arr.drop left).take (middle - left + 1) ++
      ((arr.drop left).drop (middle - left + 1)).take (right - middle)) =
      (arr.drop left).take ((middle - left + 1) + (right - middle)) :=
    (List.take_add ..).symm
  have hsorted : (((arr.drop left).take (middle - left + 1)) ++
      (((arr.drop left).drop (middle - left + 1)).take (right - middle))).Sorted (· ≤ ·) := by
    rw [key]
    exact List.Pairwise.sublist ((List.take_sublist ..).trans (List.drop_sublist ..)) hs
  rw [mergeLists_append_of_sorted hsorted, key, List.take_append_drop,
    List.take_append_drop]

theorem pmsort_merge_sort_perm (fuel : Nat) :
    ∀ (arr : List Int) (left right : Nat),
      (pmsort_merge_sort fuel arr left right).Perm arr := by
  induction fuel with
  | zero => intro arr left right; exact List.Perm.refl _
  | succ fuel ih =>
    intro arr left right
    simp only [pmsort_merge_sort]
    split
    · exact (pmsort_merge_perm _ _ _ _ (Nat.le_add_right ..)).trans
        ((ih _ _ _).trans (ih _ _ _))
    · exact List.Perm.refl _

theorem pmsort_merge_sort_eq_of_sorted (fuel : Nat) :
    ∀ (arr : List Int) (left right : Nat), arr.Sorted (· ≤ ·) →
      pmsort_merge_sort fuel arr left right = arr := by
  induction fuel with
  | zero => intro arr left right _; rfl
  | succ fuel ih =>
    intro arr left right hs
    simp only [pmsort_merge_sort]
    split
    · rw [ih arr left _ hs, ih arr _ right hs,
        pmsort_merge_eq_of_sorted _ _ _ (Nat.le_add_right ..) hs]
    · rfl

theorem pmsort_thread_merge_sort_perm (npt offset num_threads : Nat)
    (arr : List Int) (thread_id : Nat) :
    (pmsort_thread_merge_sort npt offset num_threads arr thread_id).Perm arr := by
  simp only [pmsort_thread_merge_sort]
  split <;> split
  all_goals
    first
      | exact (pmsort_merge_perm _ _ _ _ (Nat.le_add_right ..)).trans
          ((pmsort_merge_sort_perm _ _ _ _).trans (pmsort_merge_sort_perm _ _ _ _))
      | exact List.Perm.refl _

theorem pmsort_thread_merge_sort_eq_of_sorted (npt offset num_threads : Nat)
    {arr : List Int} (thread_id : Nat) (hs : arr.Sorted (· ≤ ·)) :
    pmsort_thread_merge_sort npt offset num_threads arr thread_id = arr := by
  simp only [pmsort_thread_merge_sort]
  split <;> split
  all_goals
    first
      | rw [pmsort_merge_sort_eq_of_sorted _ _ _ _ hs,
          pmsort_merge_sort_eq_of_sorted _ _ _ _ hs,
          pmsort_merge_eq_of_sorted _ _ _ (Nat.le_add_right ..) hs]
      | rfl

theorem pmsort_sections_loop_perm (npt aggregation number len : Nat)
    (hu : 1 ≤ npt * aggregation) (fuel : Nat) :
    ∀ (arr : List Int) (i : Nat),
      (pmsort_sections_loop npt aggregation number len fuel arr i).Perm arr := by
  induction fuel with
  | zero => intro arr i; exact List.Perm.refl _
  | succ fuel ih =>
    intro arr i
    simp only [pmsort_sections_loop]
    split
    · exact (ih _ _).trans (pmsort_merge_perm _ _ _ _ (by omega))
    · exact List.Perm.refl _

theorem pmsort_sections_loop_eq_of_sorted (npt aggregation number len : Nat)
    (hu : 1 ≤ npt * aggregation) (fuel : Nat) :
    ∀ (arr : List Int) (i : Nat), arr.Sorted (· ≤ ·) →
      pmsort_sections_loop npt aggregation number len fuel arr i = arr := by
  induction fuel with
  | zero => intro arr i _; rfl
  | succ fuel ih =>
    intro arr i hs
    simp only [pmsort_sections_loop]
    split
    · rw [pmsort_merge_eq_of_sorted _ _ _ (by omega) hs]
      exact ih arr (i + 2) hs
    · rfl

theorem pmsort_merge_array_sections_perm (npt len : Nat) (hnpt : 1 ≤ npt)
    (fuel : Nat) :
    ∀ (arr : List Int) (number aggregation : Nat), 1 ≤ aggregation →
      (pmsort_merge_array_sections npt len fuel arr number aggregation).Perm arr := by
  induction fuel with
  | zero => intro arr number aggregation _; exact List.Perm.refl _
  | succ fuel ih =>
    intro arr number aggregation hagg
    have hu : 1 ≤ npt * aggregation := Nat.one_le_iff_ne_zero.mpr
      (Nat.mul_ne_zero (by omega) (by omega))
    simp only [pmsort_merge_array_sections]
    split
    · exact (ih _ _ _ (by omega)).trans
        (pmsort_sections_loop_perm npt aggregation number len hu _ arr 0)
    · exact pmsort_sections_loop_perm npt aggregation number len hu _ arr 0

theorem pmsort_merge_array_sections_eq_of_sorted (npt len : Nat) (hnpt : 1 ≤ npt)
    (fuel : Nat) :
    ∀ (arr : List Int) (number aggregation : Nat), 1 ≤ aggregation →
      arr.Sorted (· ≤ ·) →
      pmsort_merge_array_sections npt len fuel arr number aggregation = arr := by
  induction fuel with
  | zero => intro arr number aggregation _ _; rfl
  | succ fuel ih =>
    intro arr number aggregation hagg hs
    have hu : 1 ≤ npt * aggregation := Nat.one_le_iff_ne_zero.mpr
      (Nat.mul_ne_zero (by omega) (by omega))
    simp only [pmsort_merge_array_sections]
    rw [pmsort_sections_loop_eq_of_sorted npt aggregation number len hu _ arr 0 hs]
    split
    · exact ih arr _ _ (by omega) hs
    · rfl

theorem foldl_perm_of_perm {f : List Int → Nat → List Int}
    (hf : ∀ acc x, (f acc x).Perm acc) :
    ∀ (l : List Nat) (arr : List Int), (l.foldl f arr).Perm arr := by
  intro l
  induction l with
  | nil => intro arr; exact List.Perm.refl _
  | cons x l ih => intro arr; exact (ih (f arr x)).trans (hf arr x)

theorem foldl_eq_of_eq {f : List Int → Nat → List Int} {P : List Int → Prop}
    (hf : ∀ acc x, P acc → f acc x = acc) :
    ∀ (l : List Nat) (arr : List Int), P arr → l.foldl f arr = arr := by
  intro l
  induction l with
  | nil => intro arr _; rfl
  | cons x l ih =>
    intro arr hp
    simp only [List.foldl_cons, hf arr x hp]
    exact ih arr hp

/-- `pmsort_sort` always permutes its input (every write the routine performs is
an adjacent-segment merge, which is a permutation). -/
theorem pmsort_sort_perm (arr : List Int) (num_threads : Nat) :
    (pmsort_sort arr num_threads).Perm arr := by
  simp only [pmsort_sort]
  split
  · exact List.Perm.refl _
  · rename_i hlen
    by_cases ht : num_threads = 0
    · subst ht
      simp only [show ¬ (0 > arr.length) from by omega, if_false]
      exact List.Perm.refl _
    · set T := if num_threads > arr.length then arr.length else num_threads with hT
      have hT1 : 1 ≤ T := by
        rw [hT]; split <;> omega
      have hTlen : T ≤ arr.length := by
        rw [hT]; split <;> omega
      have hnpt : 1 ≤ arr.length / T := (Nat.one_le_div_iff (by omega)).mpr hTlen
      exact (pmsort_merge_array_sections_perm _ _ hnpt _ _ _ _ le_rfl).trans
        (foldl_perm_of_perm (fun acc x => pmsort_thread_merge_sort_perm _ _ _ acc x) _ _)

/-- On an already sorted array, `pmsort_sort` is the identity: every merge it
performs merges adjacent segments whose concatenation is already sorted. -/
theorem pmsort_sort_eq_of_sorted {arr : List Int} (num_threads : Nat)
    (hs : arr.Sorted (· ≤ ·)) : pmsort_sort arr num_threads = arr := by
  simp only [pmsort_sort]
  split
  · rfl
  · rename_i hlen
    by_cases ht : num_threads = 0
    · subst ht
      simp only [show ¬ (0 > arr.length) from by omega, if_false]
      rfl
    · set T := if num_threads > arr.length then arr.length else num_threads with hT
      have hT1 : 1 ≤ T := by
        rw [hT]; split <;> omega
      have hTlen : T ≤ arr.length := by
        rw [hT]; split <;> omega
      have hnpt : 1 ≤ arr.length / T := (Nat.one_le_div_iff (by omega)).mpr hTlen
      rw [foldl_eq_of_eq (P := fun l => l.Sorted (· ≤ ·))
        (fun acc x hp => pmsort_thread_merge_sort_eq_of_sorted _ _ _ x hp) _ arr hs]
      exact pmsort_merge_array_sections_eq_of_sorted _ _ hnpt _ arr T 1 le_rfl hs

/-! ## heap.c : binary min-heap -/

/-- `struct heap_el` from heap.h: a key together with the index of the input
stream (merge block) it came from. -/
structure heap_el where
  key : Int
  idx : Nat
deriving Repr, DecidableEq

instance : Inhabited heap_el := ⟨⟨0, 0⟩⟩

/-- `struct heap` from heap.c.  `arr` models exactly the live prefix
`arr[0 .. count)` of the backing array — cells at or beyond `count` are never
read by the code — so `count` is `arr.length`. -/
structure Heap where
  capacity : Nat
  arr : List heap_el
deriving Repr, DecidableEq

/-- `obj->count` from heap.c. -/
def Heap.count (h : Heap) : Nat := h.arr.length

/-- `heap_parent` from heap.c (C integer division `(i - 1) / 2`; at `i = 0` the
C expression is `-1 / 2 = 0`, which agrees with Nat subtraction). -/
def heap_parent (i : Nat) : Nat := (i - 1) / 2

/-- `heap_left` from heap.c. -/
def heap_left (i : Nat) : Nat := i * 2 + 1

/-- `heap_right` from heap.c. -/
def heap_right (i : Nat) : Nat := i * 2 + 2

/-- `arr[i].key`; all reads in the code are within `count`. -/
def keyAt (l : List heap_el) (i : Nat) : Int := (l.getD i default).key

/-- `heap_swap(&arr[i], &arr[j])` from heap.c. -/
def heap_swap (l : List heap_el) (i j : Nat) : List heap_el :=
  (l.set i (l.getD j default)).set j (l.getD i default)

/-- The sift-up loop of `heap_insert`: while the element at `i` is smaller than
its parent, swap them and move up.  Fuel-structural; the index strictly
decreases, so `fuel = l.length` suffices. -/
def heap_siftup : Nat → List heap_el → Nat → List heap_el
  | 0, l, _ => l
  | fuel + 1, l, i =>
    if i ≠ 0 ∧ keyAt l (heap_parent i) > keyAt l i then
      heap_siftup fuel (heap_swap l i (heap_parent i)) (heap_parent i)
    else l

/-- `heap_insert` from heap.c, after its `assert(count < capacity)`: place the
new element at `arr[count]`, increment `count`, and sift up. -/
def heap_insert (h : Heap) (el : heap_el) : Heap :=
  ⟨h.capacity, heap_siftup (h.arr.length + 1) (h.arr ++ [el]) h.arr.length⟩

/-- The `min` index computed by one step of `heap_heapify_min`: start from `i`,
replace by the left child if it is in range and smaller, then by the right
child if it is in range and smaller than the current minimum. -/
def heap_heapify_sel (l : List heap_el) (i : Nat) : Nat :=
  let m1 := if heap_left i < l.length ∧ keyAt l (heap_left i) < keyAt l i
    then heap_left i else i
  if heap_right i < l.length ∧ keyAt l (heap_right i) < keyAt l m1
    then heap_right i else m1

/-- `heap_heapify_min` from heap.c: pick the smallest of `arr[i]` and its two
children; if it is a child, swap with it and continue there.  Fuel-structural;
the index strictly increases, so any `fuel ≥ l.length - i` suffices. -/
def heap_heapify_min : Nat → List heap_el → Nat → List heap_el
  | 0, l, _ => l
  | fuel + 1, l, i =>
    let m := heap_heapify_sel l i
    if m ≠ i then heap_heapify_min fuel (heap_swap l i m) m else l

/-- `heap_empty` from heap.c. -/
def heap_empty (h : Heap) : Bool := h.count = 0

/-- `heap_pop` from heap.c, after its `assert(count > 0)`: return `arr[0]`,
move `arr[count-1]` into `arr[0]`, decrement `count` and heapify from the root.
On an empty heap (excluded by the assert) it returns a junk element. -/
def heap_pop (h : Heap) : heap_el × Heap :=
  match h.arr with
  | [] => (default, h)
  | a :: rest =>
    (a, ⟨h.capacity, heap_heapify_min rest.length ((rest.getLastD a :: rest).dropLast) 0⟩)

/-- The min-heap invariant of heap.c (spec §4.3 and claim C5): every element at
a valid index `i > 0` is at least its parent. -/
def HeapInvL (l : List heap_el) : Prop :=
  ∀ i, i < l.length → 0 < i → keyAt l (heap_parent i) ≤ keyAt l i

instance HeapInvL.decidable (l : List heap_el) : Decidable (HeapInvL l) :=
  Nat.decidableBallLT _ _

def HeapInv (h : Heap) : Prop := HeapInvL h.arr

instance HeapInv.decidable (h : Heap) : Decidable (HeapInv h) :=
  HeapInvL.decidable h.arr

/-! ### index bookkeeping for `heap_swap` -/

theorem getD_set_self {l : List heap_el} {i : Nat} (h : i < l.length)
    (v d : heap_el) : (l.set i v).getD i d = v := by
  rw [List.getD_eq_getElem _ _ (by simpa using h), List.getElem_set_self]

theorem getD_set_ne {l : List heap_el} {i j : Nat} (h : i ≠ j)
    (v d : heap_el) : (l.set i v).getD j d = l.getD j d := by
  simp [List.getD, List.getElem?_set_ne h]

theorem heap_swap_length (l : List heap_el) (i j : Nat) :
    (heap_swap l i j).length = l.length := by
  simp [heap_swap]

theorem keyAt_swap_fst {l : List heap_el} {i j : Nat} (hi : i < l.length)
    (hj : j < l.length) : keyAt (heap_swap l i j) i = keyAt l j := by
  unfold heap_swap keyAt
  rcases eq_or_ne i j with rfl | hne
  · rw [getD_set_self (by simpa using hi)]
  · rw [getD_set_ne (Ne.symm hne), getD_set_self hi]

theorem keyAt_swap_snd {l : List heap_el} {i j : Nat} (hj : j < l.length) :
    keyAt (heap_swap l i j) j = keyAt l i := by
  unfold heap_swap keyAt
  rw [getD_set_self (by simpa using hj)]

theorem keyAt_swap_other {l : List heap_el} {i j k : Nat} (h1 : k ≠ i)
    (h2 : k ≠ j) : keyAt (heap_swap l i j) k = keyAt l k := by
  unfold heap_swap keyAt
  rw [getD_set_ne (Ne.symm h2), getD_set_ne (Ne.symm h1)]

theorem cons_set_perm (d : heap_el) :
    ∀ (t : List heap_el) (k : Nat) (a : heap_el), k < t.length →
      ((t.getD k d) :: t.set k a).Perm (a :: t) := by
  intro t
  induction t with
  | nil => intro k a h; simp at h
  | cons b t2 ih =>
    intro k a h
    match k with
    | 0 => simpa using List.Perm.swap a b t2
    | k + 1 =>
      have h2 : k < t2.length := by simpa using h
      have e1 : ((b :: t2).set (k + 1) a) = b :: t2.set k a := by simp
      rw [e1]
      exact (List.Perm.swap b (t2.getD k d) (t2.set k a)).trans
        (((ih k a h2).cons b).trans (List.Perm.swap a b t2))

theorem heap_swap_comm (l : List heap_el) {i j : Nat} (h : i ≠ j) :
    heap_swap l i j = heap_swap l j i :=
  List.set_comm _ _ l h

theorem heap_swap_zero_perm (l : List heap_el) (j : Nat) (hj : j < l.length) :
    (heap_swap l 0 j).Perm l := by
  match l, j with
  | a :: t, 0 => simp [heap_swap, keyAt, List.getD]
  | a :: t, k + 1 =>
    have hk : k < t.length := by simpa using hj
    have : heap_swap (a :: t) 0 (k + 1) = t.getD k default :: t.set k a := by
      simp [heap_swap, List.getD]
    rw [this]
    exact cons_set_perm default t k a hk

theorem heap_swap_perm :
    ∀ (l : List heap_el) (i j : Nat), i < l.length → j < l.length →
      (heap_swap l i j).Perm l := by
  intro l
  induction l with
  | nil => intro i j hi _; simp at hi
  | cons a t ih =>
    intro i j hi hj
    match i, j with
    | 0, j => exact heap_swap_zero_perm (a :: t) j hj
    | i + 1, 0 =>
      rw [heap_swap_comm _ (by omega)]
      exact heap_swap_zero_perm (a :: t) (i + 1) hi
    | i + 1, j + 1 =>
      have : heap_swap (a :: t) (i + 1) (j + 1) = a :: heap_swap t i j := by
        simp [heap_swap, List.getD]
      rw [this]
      exact (ih i j (by simpa using hi) (by simpa using hj)).cons a

/-! ### sift-up and sift-down preserve the heap invariant -/

theorem heap_parent_lt {i : Nat} (h : 0 < i) : heap_parent i < i := by
  unfold heap_parent
  exact lt_of_le_of_lt (Nat.div_le_self _ _) (by omega)

theorem heap_parent_left (i : Nat) : heap_parent (heap_left i) = i := by
  unfold heap_parent heap_left
  omega

theorem heap_parent_right (i : Nat) : heap_parent (heap_right i) = i := by
  unfold heap_parent heap_right
  omega

theorem heap_parent_eq_iff {i j : Nat} (hj : 0 < j) :
    heap_parent j = i ↔ j = heap_left i ∨ j = heap_right i := by
  unfold heap_parent heap_left heap_right
  omega

/-- Loop invariant of the sift-up in `heap_insert`: the heap property holds on
every edge not pointing into `i`, and the parent of `i` already bounds the
children of `i` from below (so a swap of `i` with its parent cannot break the
edges below `i`). -/
def AlmostHeapUp (l : List heap_el) (i : Nat) : Prop :=
  (∀ j, j < l.length → 0 < j → j ≠ i → keyAt l (heap_parent j) ≤ keyAt l j) ∧
  (∀ j, j < l.length → 0 < j → heap_parent j = i → 0 < i →
    keyAt l (heap_parent i) ≤ keyAt l j)

theorem heap_siftup_heapinv :
    ∀ (fuel : Nat) (l : List heap_el) (i : Nat), i < fuel → i < l.length →
      AlmostHeapUp l i → HeapInvL (heap_siftup fuel l i) := by
  intro fuel
  induction fuel with
  | zero => intro l i hf; exact absurd hf (Nat.not_lt_zero i)
  | succ fuel ih =>
    intro l i hf hi h
    simp only [heap_siftup]
    split
    · rename_i hc
      obtain ⟨hi0, hgt⟩ := hc
      have hipos : 0 < i := Nat.pos_of_ne_zero hi0
      have hplt : heap_parent i < i := heap_parent_lt hipos
      have hplen : heap_parent i < l.length := lt_trans hplt hi
      have kp : keyAt (heap_swap l i (heap_parent i)) (heap_parent i) = keyAt l i :=
        keyAt_swap_snd hplen
      have ki : keyAt (heap_swap l i (heap_parent i)) i = keyAt l (heap_parent i) :=
        keyAt_swap_fst hi hplen
      have ko : ∀ k, k ≠ i → k ≠ heap_parent i →
          keyAt (heap_swap l i (heap_parent i)) k = keyAt l k :=
        fun k h1 h2 => keyAt_swap_other h1 h2
      apply ih _ (heap_parent i) (by omega) (by rw [heap_swap_length]; omega)
      constructor
      · intro j hj hj0 hjne
        rw [heap_swap_length] at hj
        rcases eq_or_ne j i with hji | hji
        · rw [hji, ki, kp]
          exact le_of_lt hgt
        · have hv : keyAt (heap_swap l i (heap_parent i)) j = keyAt l j := ko j hji hjne
          rw [hv]
          rcases eq_or_ne (heap_parent j) i with hpi | hpi
          · rw [hpi, ki]
            exact h.2 j hj hj0 hpi hipos
          · rcases eq_or_ne (heap_parent j) (heap_parent i) with hpp | hpp
            · rw [hpp, kp]
              exact le_trans (le_of_lt hgt) (hpp ▸ h.1 j hj hj0 hji)
            · rw [ko _ hpi hpp]
              exact h.1 j hj hj0 hji
      · intro j hj hj0 hpj hppos
        rw [heap_swap_length] at hj
        have hqlt : heap_parent (heap_parent i) < heap_parent i := heap_parent_lt hppos
        have hq1 : heap_parent (heap_parent i) ≠ i := by omega
        have hq2 : heap_parent (heap_parent i) ≠ heap_parent i := by omega
        rw [ko _ hq1 hq2]
        rcases eq_or_ne j i with hji | hji
        · rw [hji, ki]
          exact h.1 (heap_parent i) hplen hppos (by omega)
        · have hjp : heap_parent i < j := hpj ▸ heap_parent_lt hj0
          rw [ko j hji (by omega)]
          exact le_trans (h.1 (heap_parent i) hplen hppos (by omega))
            (hpj ▸ h.1 j hj hj0 hji)
    · rename_i hc
      rw [not_and_or] at hc
      intro j hj hj0
      rcases eq_or_ne j i with hji | hne
      · rw [hji]
        rcases hc with hc | hc
        · have h0 : i = 0 := by simpa using hc
          exact absurd (hji.trans h0) (by omega)
        · exact le_of_not_lt (by simpa using hc)
      · exact h.1 j hj hj0 hne

theorem heap_siftup_perm :
    ∀ (fuel : Nat) (l : List heap_el) (i : Nat), i < l.length →
      (heap_siftup fuel l i).Perm l := by
  intro fuel
  induction fuel with
  | zero => intro l i _; exact List.Perm.refl _
  | succ fuel ih =>
    intro l i hi
    simp only [heap_siftup]
    split
    · rename_i hc
      have hipos : 0 < i := Nat.pos_of_ne_zero hc.1
      have hplen : heap_parent i < l.length := lt_trans (heap_parent_lt hipos) hi
      exact (ih _ (heap_parent i) (by rw [heap_swap_length]; omega)).trans
        (heap_swap_perm l i (heap_parent i) hi hplen)
    · exact List.Perm.refl _

theorem heap_heapify_sel_eq (l : List heap_el) (i : Nat)
    (h : heap_heapify_sel l i = i) :
    (heap_left i < l.length → keyAt l i ≤ keyAt l (heap_left i)) ∧
    (heap_right i < l.length → keyAt l i ≤ keyAt l (heap_right i)) := by
  unfold heap_heapify_sel at h
  by_cases h1 : heap_left i < l.length ∧ keyAt l (heap_left i) < keyAt l i
  · rw [if_pos h1] at h
    by_cases h2 : heap_right i < l.length ∧
        keyAt l (heap_right i) < keyAt l (heap_left i)
    · rw [if_pos h2] at h
      exact absurd h (by unfold heap_right; omega)
    · rw [if_neg h2] at h
      exact absurd h (by unfold heap_left; omega)
  · rw [if_neg h1] at h
    by_cases h2 : heap_right i < l.length ∧ keyAt l (heap_right i) < keyAt l i
    · rw [if_pos h2] at h
      exact absurd h (by unfold heap_right; omega)
    · refine ⟨fun hl => ?_, fun hr => ?_⟩
      · rcases not_and_or.mp h1 with hc | hc
        · exact absurd hl hc
        · exact le_of_not_lt hc
      · rcases not_and_or.mp h2 with hc | hc
        · exact absurd hr hc
        · exact le_of_not_lt hc

theorem heap_heapify_sel_ne (l : List heap_el) (i : Nat)
    (h : heap_heapify_sel l i ≠ i) :
    i < heap_heapify_sel l i ∧ heap_heapify_sel l i < l.length ∧
    heap_parent (heap_heapify_sel l i) = i ∧
    keyAt l (heap_heapify_sel l i) < keyAt l i ∧
    (heap_left i < l.length → keyAt l (heap_heapify_sel l i) ≤ keyAt l (heap_left i)) ∧
    (heap_right i < l.length → keyAt l (heap_heapify_sel l i) ≤ keyAt l (heap_right i)) := by
  unfold heap_heapify_sel at h ⊢
  by_cases h1 : heap_left i < l.length ∧ keyAt l (heap_left i) < keyAt l i
  · rw [if_pos h1] at h ⊢
    by_cases h2 : heap_right i < l.length ∧
        keyAt l (heap_right i) < keyAt l (heap_left i)
    · rw [if_pos h2]
      refine ⟨by unfold heap_right; omega, h2.1, heap_parent_right i,
        lt_trans h2.2 h1.2, fun _ => le_of_lt h2.2, fun _ => le_refl _⟩
    · rw [if_neg h2]
      refine ⟨by unfold heap_left; omega, h1.1, heap_parent_left i, h1.2,
        fun _ => le_refl _, fun hr => ?_⟩
      rcases not_and_or.mp h2 with hc | hc
      · exact absurd hr hc
      · exact le_of_not_lt hc
  · rw [if_neg h1] at h ⊢
    by_cases h2 : heap_right i < l.length ∧ keyAt l (heap_right i) < keyAt l i
    · rw [if_pos h2]
      refine ⟨by unfold heap_right; omega, h2.1, heap_parent_right i, h2.2,
        fun hl => ?_, fun _ => le_refl _⟩
      rcases not_and_or.mp h1 with hc | hc
      · exact absurd hl hc
      · exact le_trans (le_of_lt h2.2) (le_of_not_lt hc)
    · rw [if_neg h2] at h
      exact absurd rfl h

/-- Loop invariant of `heap_heapify_min`: the heap property holds on every edge
whose parent is not `i`, and (when `i` is not the root) the parent of `i`
bounds the children of `i` from below. -/
def AlmostHeapDown (l : List heap_el) (i : Nat) : Prop :=
  (∀ j, j < l.length → 0 < j → heap_parent j ≠ i → keyAt l (heap_parent j) ≤ keyAt l j) ∧
  (0 < i → ∀ j, j < l.length → heap_parent j = i → keyAt l (heap_parent i) ≤ keyAt l j)

theorem heap_heapify_min_heapinv :
    ∀ (fuel : Nat) (l : List heap_el) (i : Nat), l.length ≤ fuel + i →
      AlmostHeapDown l i → HeapInvL (heap_heapify_min fuel l i) := by
  intro fuel
  induction fuel with
  | zero =>
    intro l i hf h
    simp only [heap_heapify_min]
    intro j hj hj0
    have hp : heap_parent j < j := heap_parent_lt hj0
    exact h.1 j hj hj0 (by omega)
  | succ fuel ih =>
    intro l i hf h
    simp only [heap_heapify_min]
    split
    · rename_i hm
      obtain ⟨him, hmlen, hpm, hmlt, hml, hmr⟩ := heap_heapify_sel_ne l i hm
      set m := heap_heapify_sel l i with hmdef
      have hilen : i < l.length := lt_trans him hmlen
      have km : keyAt (heap_swap l i m) m = keyAt l i := keyAt_swap_snd hmlen
      have ki : keyAt (heap_swap l i m) i = keyAt l m := keyAt_swap_fst hilen hmlen
      have ko : ∀ k, k ≠ i → k ≠ m → keyAt (heap_swap l i m) k = keyAt l k :=
        fun k h1 h2 => keyAt_swap_other h1 h2
      apply ih _ m (by rw [heap_swap_length]; omega)
      constructor
      · intro j hj hj0 hjm
        rw [heap_swap_length] at hj
        rcases eq_or_ne j i with hji | hji
        · -- edge into i; parent i is neither i nor m
          subst hji
          have hjpos := hj0
          have hplt : heap_parent j < j := heap_parent_lt hj0
          rw [ki, ko (heap_parent j) (by omega) (by omega)]
          exact h.2 hj0 m hmlen hpm
        · rcases eq_or_ne j m with hjm2 | hjm2
          · -- edge into m: new values l[i] at m, parent m = i
            rw [hjm2, km, hpm, ki]
            exact le_of_lt hmlt
          · rw [ko j hji hjm2]
            rcases eq_or_ne (heap_parent j) i with hpi | hpi
            · -- j is the other child of i
              rw [hpi, ki]
              rcases (heap_parent_eq_iff hj0).mp hpi with hl | hl
              · exact hl ▸ hml (hl ▸ hj)
              · exact hl ▸ hmr (hl ▸ hj)
            · rw [ko (heap_parent j) hpi hjm]
              exact h.1 j hj hj0 hpi
      · intro hmpos j hj hpj
        rw [heap_swap_length] at hj
        have hj0 : 0 < j := by
          rcases Nat.eq_zero_or_pos j with rfl | hj0
          · simp [heap_parent] at hpj
            omega
          · exact hj0
        have hjm : m < j := hpj ▸ heap_parent_lt hj0
        have hji : j ≠ i := by omega
        rw [hpm, ki, ko j hji (by omega)]
        exact hpj ▸ h.1 j hj hj0 (by rw [hpj]; omega)
    · rename_i hm
      have hsel := heap_heapify_sel_eq l i (by simpa using hm)
      intro j hj hj0
      rcases eq_or_ne (heap_parent j) i with hpi | hpi
      · rw [hpi]
        rcases (heap_parent_eq_iff hj0).mp hpi with hl | hl
        · exact hl ▸ hsel.1 (hl ▸ hj)
        · exact hl ▸ hsel.2 (hl ▸ hj)
      · exact h.1 j hj hj0 hpi

theorem heap_heapify_min_perm :
    ∀ (fuel : Nat) (l : List heap_el) (i : Nat),
      (heap_heapify_min fuel l i).Perm l := by
  intro fuel
  induction fuel with
  | zero => intro l i; exact List.Perm.refl _
  | succ fuel ih =>
    intro l i
    simp only [heap_heapify_min]
    split
    · rename_i hm
      obtain ⟨him, hmlen, _, _, _, _⟩ := heap_heapify_sel_ne l i hm
      exact (ih _ _).trans (heap_swap_perm l i _ (lt_trans him hmlen) hmlen)
    · exact List.Perm.refl _

/-- Any element of a list satisfying the heap invariant is at least the root. -/
theorem heapinv_root_min {l : List heap_el} (h : HeapInvL l) :
    ∀ i, i < l.length → keyAt l 0 ≤ keyAt l i := by
  intro i
  induction i using Nat.strong_induction_on with
  | _ i ih =>
    intro hi
    rcases Nat.eq_zero_or_pos i with rfl | hpos
    · exact le_refl _
    · exact le_trans
        (ih (heap_parent i) (heap_parent_lt hpos)
          (lt_trans (heap_parent_lt hpos) hi))
        (h i hi hpos)

/-! ### heap-level wrappers -/

theorem heap_insert_perm (h : Heap) (el : heap_el) :
    (heap_insert h el).arr.Perm (el :: h.arr) := by
  unfold heap_insert
  exact (heap_siftup_perm _ _ _ (by simp)).trans (List.perm_append_singleton el h.arr)

theorem heap_insert_count (h : Heap) (el : heap_el) :
    (heap_insert h el).arr.length = h.arr.length + 1 := by
  simpa using (heap_insert_perm h el).length_eq

theorem heap_insert_capacity (h : Heap) (el : heap_el) :
    (heap_insert h el).capacity = h.capacity := rfl

theorem heap_insert_heapinv (h : Heap) (el : heap_el) (hinv : HeapInv h) :
    HeapInv (heap_insert h el) := by
  unfold HeapInv heap_insert
  apply heap_siftup_heapinv _ _ _ (by omega) (by simp)
  constructor
  · intro j hj hj0 hjne
    simp only [List.length_append, List.length_cons, List.length_nil] at hj
    have hjlt : j < h.arr.length := by omega
    have hplt : heap_parent j < h.arr.length := lt_trans (heap_parent_lt hj0) hjlt
    have e1 : keyAt (h.arr ++ [el]) j = keyAt h.arr j := by
      unfold keyAt
      rw [List.getD_append _ _ _ _ hjlt]
    have e2 : keyAt (h.arr ++ [el]) (heap_parent j) = keyAt h.arr (heap_parent j) := by
      unfold keyAt
      rw [List.getD_append _ _ _ _ hplt]
    rw [e1, e2]
    exact hinv j hjlt hj0
  · intro j hj hj0 hpj _
    have := heap_parent_lt hj0
    simp only [List.length_append, List.length_cons, List.length_nil] at hj
    omega

theorem heap_pop_perm (h : Heap) (hne : h.arr ≠ []) :
    ((heap_pop h).1 :: (heap_pop h).2.arr).Perm h.arr := by
  obtain ⟨cap, arr⟩ := h
  simp only at hne ⊢
  match arr, hne with
  | a :: rest, _ =>
    simp only [heap_pop]
    refine List.Perm.cons a ((heap_heapify_min_perm _ _ _).trans ?_)
    rcases List.eq_nil_or_concat rest with hr | ⟨mid, lst, hr⟩
    · subst hr; simp
    · subst hr
      rw [List.concat_eq_append]
      simp only [List.getLastD_concat]
      rw [List.dropLast_cons_of_ne_nil (by simp)]
      simp only [List.dropLast_concat]
      exact (List.perm_append_singleton lst mid).symm

theorem heap_pop_count (h : Heap) (hne : h.arr ≠ []) :
    (heap_pop h).2.arr.length = h.arr.length - 1 := by
  have := (heap_pop_perm h hne).length_eq
  simp only [List.length_cons] at this
  omega

theorem heap_pop_capacity (h : Heap) : (heap_pop h).2.capacity = h.capacity := by
  obtain ⟨cap, arr⟩ := h
  cases arr with
  | nil => rfl
  | cons a rest => rfl

theorem heap_pop_min (h : Heap) (hinv : HeapInv h) :
    ∀ e ∈ h.arr, (heap_pop h).1.key ≤ e.key := by
  intro e he
  obtain ⟨i, hi, hei⟩ := List.mem_iff_getElem.mp he
  have hroot := heapinv_root_min hinv i hi
  have h0 : 0 < h.arr.length := by omega
  have e0 : keyAt h.arr i = e.key := by
    unfold keyAt
    rw [List.getD_eq_getElem _ _ hi, hei]
  have e1 : (heap_pop h).1.key = keyAt h.arr 0 := by
    obtain ⟨cap, arr⟩ := h
    simp only at h0 ⊢
    match arr, h0 with
    | a :: rest, _ => simp [heap_pop, keyAt, List.getD]
  rw [e1, ← e0]
  exact hroot

theorem heap_pop_heapinv (h : Heap) (hinv : HeapInv h) :
    HeapInv (heap_pop h).2 := by
  obtain ⟨cap, arr⟩ := h
  unfold HeapInv at hinv ⊢
  simp only at hinv
  cases arr with
  | nil => exact hinv
  | cons a rest =>
    simp only [heap_pop]
    have hlen2 : ((rest.getLastD a :: rest).dropLast).length = rest.length := by
      simp
    apply heap_heapify_min_heapinv _ _ 0 (by omega)
    constructor
    · intro j hj hj0 hp0
      have hplt : heap_parent j < j := heap_parent_lt hj0
      have hppos : 0 < heap_parent j := Nat.pos_of_ne_zero hp0
      have agree : ∀ k, 0 < k → k < ((rest.getLastD a :: rest).dropLast).length →
          keyAt ((rest.getLastD a :: rest).dropLast) k = keyAt (a :: rest) k := by
        intro k hk0 hk
        unfold keyAt
        congr 1
        have hk2 : k < rest.length := by omega
        rw [List.getD_eq_getElem _ _ hk, List.getElem_dropLast,
          List.getD_eq_getElem _ _ (by simp; omega)]
        match k, hk0 with
        | k + 1, _ => simp
      rw [agree j hj0 hj, agree (heap_parent j) hppos (by omega)]
      exact hinv j (by simp; omega) hj0
    · intro h0 j hj hpj
      exact absurd h0 (by omega)

/-! ## kmerge.c : multi-pass K-way merge of files -/

/-- `NMERGE` from kmerge.c ("K" in "K-way merge"). -/
def NMERGE : Nat := 16

/-- `struct merge_block` from kmerge.c at the contents level: `win` is the
loaded window `buf[0 .. count)` (so `count` is `win.length`), `pos` the cursor
within it, and `rest` the not-yet-read remainder of this stream's file. -/
structure merge_block where
  win : List Int
  pos : Nat
  rest : List Int
deriving Repr, DecidableEq

instance : Inhabited merge_block := ⟨⟨[], 0, []⟩⟩

/-- Elements of a stream not yet handed to the queue or the output: the unread
tail of the window followed by the unread remainder of the file. -/
def merge_block.rem (b : merge_block) : List Int := b.win.drop b.pos ++ b.rest

/-- State of one per-group merge (`kmerge_merge_files` driving
`kmerge_merge_blocks`): the input blocks, the priority queue, the pending
output block contents (`out.length` is the output block's `pos`), the flushed
output file contents, and a flag `aok` recording that every `heap_insert` call
so far met its `assert(count < capacity)` precondition. -/
structure MergeSt where
  blocks : List merge_block
  queue : Heap
  out : List Int
  outFile : List Int
  aok : Bool
deriving Repr

/-- A call to `heap_insert`: the C code asserts `count < capacity` inside
`heap_insert`; the model records a violation in `aok` (the C process would
abort there) and performs the insertion only when the assert holds. -/
def kpush (s : MergeSt) (el : heap_el) : MergeSt :=
  if s.queue.count < s.queue.capacity then { s with queue := heap_insert s.queue el }
  else { s with aok := false }

/-- First half of the pump-loop body of `kmerge_merge_blocks`: append the
popped key `k` to the output block, flushing the block to the output file when
it fills to `bs`, and install the post-pop queue `q1`.  Short-write failures of
the output `fwrite` are not modelled here (writes succeed); write-error
propagation is treated at the `sort_sort` level. -/
def kmerge_emit (bs : Nat) (s : MergeSt) (q1 : Heap) (k : Int) : MergeSt :=
  let out1 := s.out ++ [k]
  if out1.length = bs then
    { s with queue := q1, out := [], outFile := s.outFile ++ out1 }
  else
    { s with queue := q1, out := out1 }

/-- Second half of the pump-loop body: pull the next element of stream `idx`
into the queue — from the window if it has unread elements (`pos < count`),
doing nothing if the file is finished (`count == 0`), and otherwise refilling
the window from the file (`fread`) and pushing the refilled window's first
element if the read was non-empty. -/
def kmerge_refill (bs : Nat) (s1 : MergeSt) (idx : Nat) : MergeSt :=
  let b := s1.blocks.getD idx default
  if b.win.length = 0 then
    s1
  else if b.pos < b.win.length then
    kpush { s1 with blocks := s1.blocks.set idx { b with pos := b.pos + 1 } }
      ⟨b.win.getD b.pos 0, idx⟩
  else
    let win2 := b.rest.take bs
    let rest2 := b.rest.drop bs
    if 0 < win2.length then
      kpush { s1 with blocks := s1.blocks.set idx ⟨win2, 1, rest2⟩ }
        ⟨win2.getD 0 0, idx⟩
    else
      { s1 with blocks := s1.blocks.set idx ⟨win2, 0, rest2⟩ }

/-- One iteration of the pump loop of `kmerge_merge_blocks` (executed only
when the queue is non-empty): pop the minimum `(key, idx)`, emit the key, then
refill stream `idx`. -/
def kmerge_step (bs : Nat) (s : MergeSt) : MergeSt :=
  let p := heap_pop s.queue
  kmerge_refill bs (kmerge_emit bs s p.2 p.1.key) p.1.idx

/-- The `while (!heap_empty(obj.queue))` pump loop of `kmerge_merge_blocks`.
Fuel-structural; every iteration moves exactly one element out of the
queue-plus-windows-plus-files system, so any fuel at least that total drains
the queue. -/
def kmerge_loop (bs : Nat) : Nat → MergeSt → MergeSt
  | 0, s => s
  | fuel + 1, s =>
    if heap_empty s.queue then s else kmerge_loop bs fuel (kmerge_step bs s)

/-- `kmerge_merge_blocks` from kmerge.c: pump until the queue drains, then
flush the remaining partial output block. -/
def kmerge_merge_blocks (bs fuel : Nat) (s : MergeSt) : MergeSt :=
  let s1 := kmerge_loop bs fuel s
  { s1 with out := [], outFile := s1.outFile ++ s1.out }

/-- The priming phase of `kmerge_merge_files`: load the first window (up to
`bs` elements) of each of the `fn` input files and push `(b->buf[0], i)` with
`pos = 1` for each input `i`.  Note that the C pushes `b->buf[0]` and sets
`pos = 1` unconditionally, even if the first read returned 0 elements (possible
only for an empty input file); the model reads the junk cell as 0.  The queue
is the per-merge heap created by `kmerge_merge` with capacity `NMERGE`; it is
empty at the start of every group merge. -/
def kmerge_prime (bs : Nat) (files : List (List Int)) : MergeSt :=
  let blocks := files.map (fun f => (⟨f.take bs, 1, f.drop bs⟩ : merge_block))
  (List.range files.length).foldl
    (fun s i => kpush s ⟨((files.getD i []).take bs).getD 0 0, i⟩)
    ⟨blocks, ⟨NMERGE, []⟩, [], [], true⟩

/-- The full state of one group merge (`kmerge_merge_files` body). -/
def kmerge_group_run (bs : Nat) (files : List (List Int)) : MergeSt :=
  kmerge_merge_blocks bs (files.foldl (fun n f => n + f.length) 0 + files.length)
    (kmerge_prime bs files)

/-- `kmerge_merge_files` from kmerge.c at the contents level: the output file
produced by merging the group `files`. -/
def kmerge_merge_files (bs : Nat) (files : List (List Int)) : List Int :=
  (kmerge_group_run bs files).outFile

/-- `kmerge_copy` from kmerge.c: block-wise copy of a lone leftover file (the
fast path); content-wise the identity. -/
def kmerge_copy (f : List Int) : List Int := f

/-- The grouping loop of `kmerge_merge_stage`: the stage's files are opened in
order; every full group of `NMERGE` files is merged; a lone remainder file is
copied (fast path); a remainder of 2..NMERGE-1 files is merged.  Output files
appear in positional order (`outn = i / NMERGE`).  Fuel-structural on the
number of files. -/
def kmerge_merge_stage_go (bs : Nat) : Nat → List (List Int) → List (List Int)
  | 0, _ => []
  | fuel + 1, fs =>
    if fs.length = 0 then []
    else if fs.length = 1 then [kmerge_copy (fs.headD [])]
    else if fs.length ≤ NMERGE then [kmerge_merge_files bs fs]
    else kmerge_merge_files bs (fs.take NMERGE) ::
      kmerge_merge_stage_go bs fuel (fs.drop NMERGE)

/-- `kmerge_merge_stage` from kmerge.c: one merge pass over a stage's files. -/
def kmerge_merge_stage (bs : Nat) (fs : List (List Int)) : List (List Int) :=
  kmerge_merge_stage_go bs fs.length fs

/-- Search loop computing the least `s` (starting from the given `s`) with
`fcount ≤ 16 ^ s`.  Fuel-structural; `16 ^ s ≥ s + 1`, so `fuel = fcount`
always suffices from `s = 0`. -/
def kmerge_calc_stages_go (fcount : Nat) : Nat → Nat → Nat
  | 0, s => s
  | fuel + 1, s => if fcount ≤ 16 ^ s then s else kmerge_calc_stages_go fcount fuel (s + 1)

/-- `kmerge_calc_stages` from kmerge.c computes `ceil(logn(fcount, NMERGE))` in
double precision; for `fcount ≥ 1` its exact integer value is the ceiling
logarithm `⌈log_16 fcount⌉`, i.e. the least `s` with `fcount ≤ 16 ^ s`, which
is what this executable model computes (theorem C6 below proves it equal to
`Nat.clog 16 fcount` and to the real-logarithm formula of the spec). -/
def kmerge_calc_stages (fcount : Nat) : Nat := kmerge_calc_stages_go fcount fcount 0

/-- `kmerge_calc_stage_files` from kmerge.c: `fcount` at stage 0, else
`ceil(fcount / 16^stage)`.  The C computes the quotient in double precision;
division by a power of two is exact in binary floating point, so the rational
ceiling is its exact value. -/
def kmerge_calc_stage_files (fcount stage : Nat) : Nat :=
  if stage = 0 then fcount else ⌈(fcount : ℚ) / (16 : ℚ) ^ stage⌉₊

/-- The stage loop of `kmerge_merge_all`: run the given number of merge
stages.  (The stage index only affects temp-file names in the C code.) -/
def kmerge_merge_all (bs : Nat) : Nat → List (List Int) → List (List Int)
  | 0, fs => fs
  | stages + 1, fs => kmerge_merge_all bs stages (kmerge_merge_stage bs fs)

/-- `kmerge_merge` from kmerge.c at the contents level: given the stage-0 run
files, run all `S = kmerge_calc_stages fcount` merge stages and return the
contents of the terminal file `{tmpdir}/{S}_0`.  C asserts require
`fcount > 0` and `buf_nmemb > NMERGE`. -/
def kmerge_merge (buf_nmemb : Nat) (files : List (List Int)) : List Int :=
  let bs := buf_nmemb / (NMERGE + 1)
  (kmerge_merge_all bs (kmerge_calc_stages files.length) files).headD []

example : kmerge_merge_files 2 [[1, 3, 5], [2, 2], [0, 4]] = [0, 1, 2, 2, 3, 4, 5] := by decide
example : kmerge_merge 34 [[1, 3], [0, 2], [2, 5]] = [0, 1, 2, 2, 3, 5] := by decide
example : kmerge_merge 34 [[4, 9]] = [4, 9] := by decide

/-! ### invariants of the per-group merge -/

/-- All output emitted so far: flushed file contents plus the pending block. -/
def outAll (s : MergeSt) : List Int := s.outFile ++ s.out

/-- Every element currently in the system: emitted output, queued keys, and
each stream's not-yet-consumed remainder.  The pump loop permutes this list. -/
def sysM (s : MergeSt) : List Int :=
  outAll s ++ s.queue.arr.map heap_el.key ++ ((s.blocks.map merge_block.rem).flatten)

/-- Number of elements not yet emitted (the pump loop measure). -/
def measureM (s : MergeSt) : Nat :=
  s.queue.count + ((s.blocks.map merge_block.rem).flatten).length

/-- Structural invariant of the pump loop (no sortedness assumed): the queue
has capacity `NMERGE`, satisfies the heap property, holds at most one element
per stream with in-range stream indices; streams without a queued element are
fully consumed; a window can be empty only when its file is exhausted; and no
`heap_insert` precondition has been violated. -/
structure MInv (s : MergeSt) : Prop where
  cap : s.queue.capacity = NMERGE
  mle : s.blocks.length ≤ NMERGE
  idxlt : ∀ el ∈ s.queue.arr, el.idx < s.blocks.length
  nodup : (s.queue.arr.map heap_el.idx).Nodup
  dead : ∀ i, i < s.blocks.length → i ∉ s.queue.arr.map heap_el.idx →
    (s.blocks.getD i default).rem = []
  wz : ∀ i, i < s.blocks.length → (s.blocks.getD i default).win.length = 0 →
    (s.blocks.getD i default).rest = []
  hinv : HeapInv s.queue
  mok : s.aok = true

/-- Order invariant, maintained when the input files are sorted: every queued
key heads a sorted remainder of its stream, the emitted output is sorted, and
every emitted element is at most every queued key. -/
structure SInv (s : MergeSt) : Prop where
  qsorted : ∀ el ∈ s.queue.arr,
    (el.key :: (s.blocks.getD el.idx default).rem).Sorted (· ≤ ·)
  osorted : (outAll s).Sorted (· ≤ ·)
  obound : ∀ y ∈ outAll s, ∀ el ∈ s.queue.arr, y ≤ el.key

theorem getD_set_self2 {α : Type} [Inhabited α] {l : List α} {i : Nat}
    (h : i < l.length) (v : α) : (l.set i v).getD i default = v := by
  rw [List.getD_eq_getElem _ _ (by simpa using h), List.getElem_set_self]

theorem getD_set_ne2 {α : Type} [Inhabited α] {l : List α} {i j : Nat}
    (h : i ≠ j) (v : α) : (l.set i v).getD j default = l.getD j default := by
  simp [List.getD, List.getElem?_set_ne h]

/-- A Nodup list of indices all below `m` has length at most `m`. -/
theorem nodup_lt_length_le {l : List Nat} {m : Nat} (hd : l.Nodup)
    (hlt : ∀ x ∈ l, x < m) : l.length ≤ m := by
  have h1 : l.toFinset.card = l.length := List.toFinset_card_of_nodup hd
  have h2 : l.toFinset ⊆ Finset.range m := by
    intro x hx
    simp only [Finset.mem_range]
    exact hlt x (List.mem_toFinset.mp hx)
  have := Finset.card_le_card h2
  simpa [h1] using this

theorem MInv.count_le {s : MergeSt} (h : MInv s) :
    s.queue.count ≤ s.blocks.length := by
  have := nodup_lt_length_le h.nodup (by
    intro x hx
    obtain ⟨el, hel, rfl⟩ := List.mem_map.mp hx
    exact h.idxlt el hel)
  simpa [Heap.count] using this

/-- Decomposing the join of a list of lists around one set position. -/
theorem join_parts (L : List (List Int)) (i : Nat) (hi : i < L.length) :
    L.flatten = (L.take i).flatten ++ (L.getD i []) ++ ((L.drop (i + 1)).flatten) := by
  conv_lhs => rw [← List.take_append_drop i L, List.drop_eq_getElem_cons hi]
  rw [List.flatten_append, List.flatten_cons, List.getD_eq_getElem L [] hi,
    List.append_assoc]

theorem join_parts_set (L : List (List Int)) (i : Nat) (x : List Int)
    (hi : i < L.length) :
    (L.set i x).flatten = (L.take i).flatten ++ x ++ ((L.drop (i + 1)).flatten) := by
  rw [List.set_eq_take_cons_drop x hi, List.flatten_append]
  simp [List.append_assoc]

theorem outAll_emit (bs : Nat) (s : MergeSt) (q1 : Heap) (k : Int) :
    outAll (kmerge_emit bs s q1 k) = outAll s ++ [k] := by
  simp only [kmerge_emit, outAll]
  split <;> simp

theorem kmerge_emit_blocks (bs : Nat) (s : MergeSt) (q1 : Heap) (k : Int) :
    (kmerge_emit bs s q1 k).blocks = s.blocks := by
  simp only [kmerge_emit]
  split <;> rfl

theorem kmerge_emit_queue (bs : Nat) (s : MergeSt) (q1 : Heap) (k : Int) :
    (kmerge_emit bs s q1 k).queue = q1 := by
  simp only [kmerge_emit]
  split <;> rfl

theorem kmerge_emit_aok (bs : Nat) (s : MergeSt) (q1 : Heap) (k : Int) :
    (kmerge_emit bs s q1 k).aok = s.aok := by
  simp only [kmerge_emit]
  split <;> rfl

/-- What one `kmerge_refill` does, as seen by the invariants: output fields
and other streams untouched; either the popped stream is exhausted (nothing
pushed, remainder empty) or its next element moves from the stream into the
queue. -/
structure RefillSpec (s1 s2 : MergeSt) (idx : Nat) : Prop where
  oeq : s2.out = s1.out
  feq : s2.outFile = s1.outFile
  aeq : s2.aok = s1.aok
  ceq : s2.queue.capacity = s1.queue.capacity
  leq : s2.blocks.length = s1.blocks.length
  other : ∀ j, j ≠ idx → s2.blocks.getD j default = s1.blocks.getD j default
  wz2 : (s2.blocks.getD idx default).win.length = 0 →
    (s2.blocks.getD idx default).rest = []
  hinv2 : HeapInv s1.queue → HeapInv s2.queue
  main : ((s1.blocks.getD idx default).rem = [] ∧ s2.queue = s1.queue ∧
           (s2.blocks.getD idx default).rem = []) ∨
         (∃ k rest2, (s1.blocks.getD idx default).rem = k :: rest2 ∧
           s2.queue.arr.Perm (⟨k, idx⟩ :: s1.queue.arr) ∧
           (s2.blocks.getD idx default).rem = rest2)

theorem kpush_spec (s : MergeSt) (el : heap_el)
    (h : s.queue.count < s.queue.capacity) :
    (kpush s el).blocks = s.blocks ∧ (kpush s el).out = s.out ∧
    (kpush s el).outFile = s.outFile ∧ (kpush s el).aok = s.aok ∧
    (kpush s el).queue = heap_insert s.queue el := by
  unfold kpush
  rw [if_pos h]
  exact ⟨rfl, rfl, rfl, rfl, rfl⟩

theorem kmerge_refill_spec (bs : Nat) (s1 : MergeSt) (idx : Nat)
    (hbs : 1 ≤ bs) (hidx : idx < s1.blocks.length)
    (hcount : s1.queue.count < s1.queue.capacity)
    (hwz : (s1.blocks.getD idx default).win.length = 0 →
      (s1.blocks.getD idx default).rest = []) :
    RefillSpec s1 (kmerge_refill bs s1 idx) idx := by
  simp only [kmerge_refill]
  split
  · rename_i hw
    have hrest : (s1.blocks.getD idx default).rest = [] := hwz hw
    have hrem : (s1.blocks.getD idx default).rem = [] := by
      unfold merge_block.rem
      rw [hrest, List.drop_eq_nil_of_le (by omega), List.append_nil]
    exact ⟨rfl, rfl, rfl, rfl, rfl, fun j _ => rfl, hwz, fun hi => hi,
      Or.inl ⟨hrem, rfl, hrem⟩⟩
  · rename_i hw
    split
    · rename_i hpos
      obtain ⟨hb, ho, hf, ha, hq⟩ := kpush_spec
        ({ s1 with blocks := (s1.blocks.set idx
            ({ s1.blocks.getD idx default with
                pos := (s1.blocks.getD idx default).pos + 1 })) })
        ⟨(s1.blocks.getD idx default).win.getD (s1.blocks.getD idx default).pos 0, idx⟩
        hcount
      have hself : ((s1.blocks.set idx
          ({ s1.blocks.getD idx default with
              pos := (s1.blocks.getD idx default).pos + 1 })).getD idx default) =
          ({ s1.blocks.getD idx default with
              pos := (s1.blocks.getD idx default).pos + 1 }) :=
        getD_set_self2 hidx _
      refine ⟨ho, hf, ha, ?_, ?_, ?_, ?_, ?_, ?_⟩
      · rw [hq]
        exact heap_insert_capacity _ _
      · rw [hb]
        simp
      · intro j hj
        rw [hb]
        exact getD_set_ne2 (fun he => hj he.symm) _
      · rw [hb, hself]
        intro h2
        exact absurd h2 hw
      · intro hi
        rw [hq]
        exact heap_insert_heapinv _ _ hi
      · refine Or.inr ⟨(s1.blocks.getD idx default).win.getD
          (s1.blocks.getD idx default).pos 0,
          (s1.blocks.getD idx default).win.drop ((s1.blocks.getD idx default).pos + 1) ++
            (s1.blocks.getD idx default).rest, ?_, ?_, ?_⟩
        · unfold merge_block.rem
          rw [List.getD_eq_getElem _ _ hpos, List.drop_eq_getElem_cons hpos,
            List.cons_append]
        · rw [hq]
          exact heap_insert_perm _ _
        · rw [hb, hself]
          rfl
    · rename_i hpos
      have hple : (s1.blocks.getD idx default).win.length ≤
          (s1.blocks.getD idx default).pos := by omega
      have hrem : (s1.blocks.getD idx default).rem =
          (s1.blocks.getD idx default).rest := by
        unfold merge_block.rem
        rw [List.drop_eq_nil_of_le hple, List.nil_append]
      split
      · rename_i hw2
        have hrne : (s1.blocks.getD idx default).rest ≠ [] := by
          intro he
          rw [he] at hw2
          simp at hw2
        obtain ⟨r0, rt, hr⟩ := List.exists_cons_of_ne_nil hrne
        have htake : (s1.blocks.getD idx default).rest.take bs =
            r0 :: rt.take (bs - 1) := by
          rw [hr]
          match bs, hbs with
          | bs + 1, _ => simp
        have hdrop : (s1.blocks.getD idx default).rest.drop bs =
            rt.drop (bs - 1) := by
          rw [hr]
          match bs, hbs with
          | bs + 1, _ => simp
        obtain ⟨hb, ho, hf, ha, hq⟩ := kpush_spec
          ({ s1 with blocks := (s1.blocks.set idx
              ⟨(s1.blocks.getD idx default).rest.take bs, 1,
                (s1.blocks.getD idx default).rest.drop bs⟩) })
          ⟨((s1.blocks.getD idx default).rest.take bs).getD 0 0, idx⟩
          hcount
        have hself : ((s1.blocks.set idx
            ⟨(s1.blocks.getD idx default).rest.take bs, 1,
              (s1.blocks.getD idx default).rest.drop bs⟩).getD idx default) =
            ⟨(s1.blocks.getD idx default).rest.take bs, 1,
              (s1.blocks.getD idx default).rest.drop bs⟩ :=
          getD_set_self2 hidx _
        refine ⟨ho, hf, ha, ?_, ?_, ?_, ?_, ?_, ?_⟩
        · rw [hq]
          exact heap_insert_capacity _ _
        · rw [hb]
          simp
        · intro j hj
          rw [hb]
          exact getD_set_ne2 (fun he => hj he.symm) _
        · rw [hb, hself]
          intro h2
          rw [htake] at h2
          simp at h2
        · intro hi
          rw [hq]
          exact heap_insert_heapinv _ _ hi
        · refine Or.inr ⟨r0, rt, ?_, ?_, ?_⟩
          · rw [hrem, hr]
          · have he2 : ((s1.blocks.getD idx default).rest.take bs).getD 0 0 = r0 := by
              rw [htake]
              simp [List.getD]
            rw [hq, ← he2]
            exact heap_insert_perm _ _
          · rw [hb, hself]
            unfold merge_block.rem
            simp only [htake, hdrop, List.drop_one]
            rw [List.tail_cons, List.take_append_drop]
      · rename_i hw2
        have hr0 : (s1.blocks.getD idx default).rest = [] := by
          by_contra hne
          obtain ⟨r0, rt, hr⟩ := List.exists_cons_of_ne_nil hne
          rw [hr] at hw2
          apply hw2
          match bs, hbs with
          | bs + 1, _ => simp
        have hself : ((s1.blocks.set idx
            ⟨(s1.blocks.getD idx default).rest.take bs, 0,
              (s1.blocks.getD idx default).rest.drop bs⟩).getD idx default) =
            ⟨(s1.blocks.getD idx default).rest.take bs, 0,
              (s1.blocks.getD idx default).rest.drop bs⟩ :=
          getD_set_self2 hidx _
        refine ⟨rfl, rfl, rfl, rfl, by simp, ?_, ?_, fun hi => hi, ?_⟩
        · intro j hj
          exact getD_set_ne2 (fun he => hj he.symm) _
        · rw [hself]
          intro _
          rw [hr0]
          simp
        · refine Or.inl ⟨by rw [hrem, hr0], rfl, ?_⟩
          rw [hself]
          unfold merge_block.rem
          rw [hr0]
          simp

theorem list_ext_getD {α : Type} [Inhabited α] (l l2 : List α)
    (hlen : l.length = l2.length)
    (h : ∀ j, j < l.length → l.getD j default = l2.getD j default) : l = l2 := by
  apply List.ext_getElem hlen
  intro j hj1 hj2
  have := h j hj1
  rwa [List.getD_eq_getElem _ _ hj1, List.getD_eq_getElem _ _ hj2] at this

theorem getD_map_rem (L : List merge_block) (j : Nat) (hL : j < L.length)
    (d : List Int) :
    (L.map merge_block.rem).getD j d = (L.getD j default).rem := by
  rw [List.getD_eq_getElem _ _ (by simpa using hL), List.getElem_map,
    List.getD_eq_getElem _ _ hL]

theorem kmerge_step_minv (bs : Nat) (s : MergeSt) (hbs : 1 ≤ bs)
    (hne : s.queue.count ≠ 0) (h : MInv s) :
    MInv (kmerge_step bs s) ∧ (sysM (kmerge_step bs s)).Perm (sysM s) ∧
    measureM (kmerge_step bs s) + 1 = measureM s := by
  have hqne : s.queue.arr ≠ [] := by
    intro he
    exact hne (by simp [Heap.count, he])
  have hpop : ((heap_pop s.queue).1 :: (heap_pop s.queue).2.arr).Perm s.queue.arr :=
    heap_pop_perm _ hqne
  set el := (heap_pop s.queue).1 with hel
  set q1 := (heap_pop s.queue).2 with hq1
  have hmem : el ∈ s.queue.arr := hpop.subset (List.mem_cons_self el _)
  have hidx : el.idx < s.blocks.length := h.idxlt el hmem
  have hq1inv : HeapInv q1 := heap_pop_heapinv _ h.hinv
  have hq1cap : q1.capacity = NMERGE := (heap_pop_capacity s.queue).trans h.cap
  have hq1len : q1.arr.length + 1 = s.queue.arr.length := by
    have := hpop.length_eq
    simpa using this
  set s1 := kmerge_emit bs s q1 el.key with hs1
  have hstep : kmerge_step bs s = kmerge_refill bs s1 el.idx := rfl
  have hb1 : s1.blocks = s.blocks := kmerge_emit_blocks ..
  have hqe1 : s1.queue = q1 := kmerge_emit_queue ..
  have ha1 : s1.aok = s.aok := kmerge_emit_aok ..
  have hout1 : outAll s1 = outAll s ++ [el.key] := outAll_emit ..
  have hcount1 : s1.queue.count < s1.queue.capacity := by
    rw [hqe1, hq1cap]
    have h1 : s.queue.count ≤ s.blocks.length := h.count_le
    have h2 : s.blocks.length ≤ NMERGE := h.mle
    simp only [Heap.count] at h1 hne ⊢
    omega
  have spec := kmerge_refill_spec bs s1 el.idx hbs (hb1 ▸ hidx) hcount1
    (by rw [hb1]; exact h.wz el.idx hidx)
  rw [hstep]
  set s2 := kmerge_refill bs s1 el.idx with hs2
  have hlen2 : s2.blocks.length = s.blocks.length := by rw [spec.leq, hb1]
  have hother : ∀ j, j ≠ el.idx →
      s2.blocks.getD j default = s.blocks.getD j default := by
    intro j hj
    rw [spec.other j hj, hb1]
  have hout2 : outAll s2 = outAll s ++ [el.key] := by
    have he : outAll s2 = outAll s1 := by
      unfold outAll
      rw [spec.feq, spec.oeq]
    rw [he, hout1]
  have hmapset : s2.blocks.map merge_block.rem =
      (s.blocks.map merge_block.rem).set el.idx
        ((s2.blocks.getD el.idx default).rem) := by
    apply list_ext_getD
    · simp [hlen2]
    · intro j hj
      simp only [List.length_map] at hj
      have hjs : j < s.blocks.length := by omega
      rcases eq_or_ne j el.idx with hje | hjne
      · rw [getD_map_rem s2.blocks j hj _, hje, getD_set_self2 (by simp; omega)]
      · rw [getD_map_rem s2.blocks j hj _, getD_set_ne2 (fun he => hjne he.symm),
          getD_map_rem s.blocks j hjs _, hother j hjne]
  have hmaplen : el.idx < (s.blocks.map merge_block.rem).length := by
    simpa using hidx
  have hJ2 : (s2.blocks.map merge_block.rem).flatten =
      ((s.blocks.map merge_block.rem).take el.idx).flatten ++
        (s2.blocks.getD el.idx default).rem ++
        (((s.blocks.map merge_block.rem).drop (el.idx + 1)).flatten) := by
    rw [hmapset]
    exact join_parts_set _ _ _ hmaplen
  have hJ : (s.blocks.map merge_block.rem).flatten =
      ((s.blocks.map merge_block.rem).take el.idx).flatten ++
        (s.blocks.getD el.idx default).rem ++
        (((s.blocks.map merge_block.rem).drop (el.idx + 1)).flatten) := by
    have he := join_parts (s.blocks.map merge_block.rem) el.idx hmaplen
    rw [he, getD_map_rem s.blocks el.idx hidx _]
  have hKperm : (s.queue.arr.map heap_el.key).Perm
      (el.key :: q1.arr.map heap_el.key) := (hpop.map heap_el.key).symm
  have hIperm : (s.queue.arr.map heap_el.idx).Perm
      (el.idx :: q1.arr.map heap_el.idx) := (hpop.map heap_el.idx).symm
  have hnodup1 : (q1.arr.map heap_el.idx).Nodup ∧
      el.idx ∉ q1.arr.map heap_el.idx := by
    have hn := (hIperm.nodup_iff).mp h.nodup
    exact ⟨(List.nodup_cons.mp hn).2, (List.nodup_cons.mp hn).1⟩
  rcases spec.main with ⟨hrem0, hqeq, hrem2⟩ | ⟨k, rest2, hremk, hqperm, hrem2⟩
  · -- exhausted stream: nothing pushed
    have hrem0s : (s.blocks.getD el.idx default).rem = [] := hb1 ▸ hrem0
    have hq2 : s2.queue = q1 := by rw [hqeq, hqe1]
    refine ⟨⟨?_, ?_, ?_, ?_, ?_, ?_, ?_, ?_⟩, ?_, ?_⟩
    · rw [spec.ceq, hqe1, hq1cap]
    · rw [hlen2]; exact h.mle
    · intro e2 he2
      rw [hq2] at he2
      rw [hlen2]
      exact h.idxlt e2 (hpop.subset (List.mem_cons_of_mem el he2))
    · rw [hq2]
      exact hnodup1.1
    · intro i hi hni
      rw [hq2] at hni
      rcases eq_or_ne i el.idx with rfl | hine
      · exact hrem2
      · rw [hother i hine]
        apply h.dead i (hlen2 ▸ hi)
        intro hmemi
        rcases List.mem_cons.mp ((hIperm.mem_iff).mp hmemi) with he | he
        · exact hine he
        · exact hni he
    · intro i hi
      rcases eq_or_ne i el.idx with rfl | hine
      · exact spec.wz2
      · rw [hother i hine]
        exact h.wz i (hlen2 ▸ hi)
    · exact spec.hinv2 (hqe1 ▸ hq1inv)
    · rw [spec.aeq, ha1]; exact h.mok
    · unfold sysM
      rw [hout2, hq2, hJ2, hJ, hrem0s, hrem2]
      apply List.perm_iff_count.mpr
      intro x
      have hc := hKperm.count_eq x
      simp only [List.count_append, List.count_cons, List.count_nil,
        List.map_cons] at hc ⊢
      omega
    · unfold measureM
      rw [hq2, hJ2, hJ, hrem0s, hrem2]
      simp only [Heap.count, List.length_append]
      omega
  · -- one element moved from the stream into the queue
    have hremks : (s.blocks.getD el.idx default).rem = k :: rest2 := hb1 ▸ hremk
    have hq2perm : s2.queue.arr.Perm ((⟨k, el.idx⟩ : heap_el) :: q1.arr) := by
      rw [hqe1] at hqperm
      exact hqperm
    have hq2idx : (s2.queue.arr.map heap_el.idx).Perm
        (el.idx :: q1.arr.map heap_el.idx) := by
      simpa using hq2perm.map heap_el.idx
    refine ⟨⟨?_, ?_, ?_, ?_, ?_, ?_, ?_, ?_⟩, ?_, ?_⟩
    · rw [spec.ceq, hqe1, hq1cap]
    · rw [hlen2]; exact h.mle
    · intro e2 he2
      rw [hlen2]
      rcases List.mem_cons.mp ((hq2perm.mem_iff).mp he2) with rfl | he
      · exact hidx
      · exact h.idxlt e2 (hpop.subset (List.mem_cons_of_mem el he))
    · rw [hq2idx.nodup_iff]
      exact List.nodup_cons.mpr ⟨hnodup1.2, hnodup1.1⟩
    · intro i hi hni
      have hine : i ≠ el.idx := by
        intro he
        apply hni
        rw [he]
        exact (hq2idx.mem_iff).mpr (List.mem_cons_self _ _)
      rw [hother i hine]
      apply h.dead i (hlen2 ▸ hi)
      intro hmemi
      rcases List.mem_cons.mp ((hIperm.mem_iff).mp hmemi) with he | he
      · exact hine he
      · exact hni ((hq2idx.mem_iff).mpr (List.mem_cons_of_mem _ he))
    · intro i hi
      rcases eq_or_ne i el.idx with rfl | hine
      · exact spec.wz2
      · rw [hother i hine]
        exact h.wz i (hlen2 ▸ hi)
    · exact spec.hinv2 (hqe1 ▸ hq1inv)
    · rw [spec.aeq, ha1]; exact h.mok
    · unfold sysM
      rw [hout2, hJ2, hJ, hremks, hrem2]
      apply List.perm_iff_count.mpr
      intro x
      have hc := hKperm.count_eq x
      have hc2 := (hq2perm.map heap_el.key).count_eq x
      simp only [List.count_append, List.count_cons, List.count_nil,
        List.map_cons] at hc hc2 ⊢
      omega
    · unfold measureM
      rw [hJ2, hJ, hremks, hrem2]
      have hc2 : s2.queue.arr.length = q1.arr.length + 1 := by
        simpa using hq2perm.length_eq
      simp only [Heap.count, List.length_append, List.length_cons]
      omega

theorem kmerge_step_sinv (bs : Nat) (s : MergeSt) (hbs : 1 ≤ bs)
    (hne : s.queue.count ≠ 0) (h : MInv s) (hs : SInv s) :
    SInv (kmerge_step bs s) := by
  have hqne : s.queue.arr ≠ [] := by
    intro he
    exact hne (by simp [Heap.count, he])
  have hpop : ((heap_pop s.queue).1 :: (heap_pop s.queue).2.arr).Perm s.queue.arr :=
    heap_pop_perm _ hqne
  set el := (heap_pop s.queue).1 with hel
  set q1 := (heap_pop s.queue).2 with hq1
  have hmem : el ∈ s.queue.arr := hpop.subset (List.mem_cons_self el _)
  have hidx : el.idx < s.blocks.length := h.idxlt el hmem
  have hq1inv : HeapInv q1 := heap_pop_heapinv _ h.hinv
  have hq1cap : q1.capacity = NMERGE := (heap_pop_capacity s.queue).trans h.cap
  have hmin : ∀ e ∈ s.queue.arr, el.key ≤ e.key := heap_pop_min s.queue h.hinv
  set s1 := kmerge_emit bs s q1 el.key with hs1
  have hstep : kmerge_step bs s = kmerge_refill bs s1 el.idx := rfl
  have hb1 : s1.blocks = s.blocks := kmerge_emit_blocks ..
  have hqe1 : s1.queue = q1 := kmerge_emit_queue ..
  have hout1 : outAll s1 = outAll s ++ [el.key] := outAll_emit ..
  have hcount1 : s1.queue.count < s1.queue.capacity := by
    rw [hqe1, hq1cap]
    have h1 : s.queue.count ≤ s.blocks.length := h.count_le
    have h2 : s.blocks.length ≤ NMERGE := h.mle
    have h3 : q1.arr.length + 1 = s.queue.arr.length := by
      simpa using hpop.length_eq
    simp only [Heap.count] at h1 hne ⊢
    omega
  have spec := kmerge_refill_spec bs s1 el.idx hbs (hb1 ▸ hidx) hcount1
    (by rw [hb1]; exact h.wz el.idx hidx)
  rw [hstep]
  set s2 := kmerge_refill bs s1 el.idx with hs2
  have hother : ∀ j, j ≠ el.idx →
      s2.blocks.getD j default = s.blocks.getD j default := by
    intro j hj
    rw [spec.other j hj, hb1]
  have hout2 : outAll s2 = outAll s ++ [el.key] := by
    have he : outAll s2 = outAll s1 := by
      unfold outAll
      rw [spec.feq, spec.oeq]
    rw [he, hout1]
  have hIperm : (s.queue.arr.map heap_el.idx).Perm
      (el.idx :: q1.arr.map heap_el.idx) := (hpop.map heap_el.idx).symm
  have hnodup1 : el.idx ∉ q1.arr.map heap_el.idx := by
    have hn := (hIperm.nodup_iff).mp h.nodup
    exact (List.nodup_cons.mp hn).1
  have hq1ne : ∀ e2 ∈ q1.arr, e2.idx ≠ el.idx := by
    intro e2 he2 hee
    exact hnodup1 (List.mem_map.mpr ⟨e2, he2, hee⟩)
  have hosorted2 : (outAll s2).Sorted (· ≤ ·) := by
    rw [hout2]
    rw [List.Sorted, List.pairwise_append]
    refine ⟨hs.osorted, by simp, ?_⟩
    intro a ha b hb
    rcases List.mem_singleton.mp hb with rfl
    exact hs.obound a ha el hmem
  rcases spec.main with ⟨hrem0, hqeq, hrem2⟩ | ⟨k, rest2, hremk, hqperm, hrem2⟩
  · have hq2 : s2.queue = q1 := by rw [hqeq, hqe1]
    refine ⟨?_, hosorted2, ?_⟩
    · intro e2 he2
      rw [hq2] at he2
      rw [hother e2.idx (hq1ne e2 he2)]
      exact hs.qsorted e2 (hpop.subset (List.mem_cons_of_mem el he2))
    · intro y hy e2 he2
      rw [hq2] at he2
      have he2s : e2 ∈ s.queue.arr := hpop.subset (List.mem_cons_of_mem el he2)
      rw [hout2] at hy
      rcases List.mem_append.mp hy with hy1 | hy2
      · exact hs.obound y hy1 e2 he2s
      · rcases List.mem_singleton.mp hy2 with rfl
        exact hmin e2 he2s
  · have hremks : (s.blocks.getD el.idx default).rem = k :: rest2 := hb1 ▸ hremk
    have hq2perm : s2.queue.arr.Perm ((⟨k, el.idx⟩ : heap_el) :: q1.arr) := by
      rw [hqe1] at hqperm
      exact hqperm
    have hheadsorted : (el.key :: k :: rest2).Sorted (· ≤ ·) := by
      have hq := hs.qsorted el hmem
      rwa [hremks] at hq
    have helk : el.key ≤ k := (List.sorted_cons.mp hheadsorted).1 k (by simp)
    refine ⟨?_, hosorted2, ?_⟩
    · intro e2 he2
      rcases List.mem_cons.mp ((hq2perm.mem_iff).mp he2) with rfl | he
      · have : (s2.blocks.getD el.idx default).rem = rest2 := hrem2
        simp only [this]
        exact (List.sorted_cons.mp hheadsorted).2
      · rw [hother e2.idx (hq1ne e2 he)]
        exact hs.qsorted e2 (hpop.subset (List.mem_cons_of_mem el he))
    · intro y hy e2 he2
      rw [hout2] at hy
      have hyb : y ≤ el.key := by
        rcases List.mem_append.mp hy with hy1 | hy2
        · exact hs.obound y hy1 el hmem
        · rcases List.mem_singleton.mp hy2 with rfl
          exact le_refl _
      rcases List.mem_cons.mp ((hq2perm.mem_iff).mp he2) with rfl | he
      · exact le_trans hyb helk
      · exact le_trans hyb (hmin e2 (hpop.subset (List.mem_cons_of_mem el he)))

theorem kmerge_loop_minv (bs : Nat) (hbs : 1 ≤ bs) :
    ∀ (fuel : Nat) (s : MergeSt), MInv s →
      MInv (kmerge_loop bs fuel s) ∧
      (sysM (kmerge_loop bs fuel s)).Perm (sysM s) := by
  intro fuel
  induction fuel with
  | zero => intro s h; exact ⟨h, List.Perm.refl _⟩
  | succ fuel ih =>
    intro s h
    simp only [kmerge_loop]
    split
    · exact ⟨h, List.Perm.refl _⟩
    · rename_i hq
      have hne : s.queue.count ≠ 0 := by
        simpa [heap_empty] using hq
      obtain ⟨h2, hp, _⟩ := kmerge_step_minv bs s hbs hne h
      obtain ⟨h3, hp2⟩ := ih _ h2
      exact ⟨h3, hp2.trans hp⟩

theorem kmerge_loop_sinv (bs : Nat) (hbs : 1 ≤ bs) :
    ∀ (fuel : Nat) (s : MergeSt), MInv s → SInv s →
      SInv (kmerge_loop bs fuel s) := by
  intro fuel
  induction fuel with
  | zero => intro s _ hs; exact hs
  | succ fuel ih =>
    intro s h hs
    simp only [kmerge_loop]
    split
    · exact hs
    · rename_i hq
      have hne : s.queue.count ≠ 0 := by
        simpa [heap_empty] using hq
      obtain ⟨h2, _, _⟩ := kmerge_step_minv bs s hbs hne h
      exact ih _ h2 (kmerge_step_sinv bs s hbs hne h hs)

theorem kmerge_loop_drain (bs : Nat) (hbs : 1 ≤ bs) :
    ∀ (fuel : Nat) (s : MergeSt), MInv s → measureM s ≤ fuel →
      (kmerge_loop bs fuel s).queue.count = 0 := by
  intro fuel
  induction fuel with
  | zero =>
    intro s _ hf
    unfold measureM at hf
    simp only [kmerge_loop]
    omega
  | succ fuel ih =>
    intro s h hf
    simp only [kmerge_loop]
    split
    · rename_i hq
      simpa [heap_empty] using hq
    · rename_i hq
      have hne : s.queue.count ≠ 0 := by
        simpa [heap_empty] using hq
      obtain ⟨h2, _, hm⟩ := kmerge_step_minv bs s hbs hne h
      exact ih _ h2 (by omega)

theorem minv_final (s : MergeSt) (h : MInv s) (hq : s.queue.count = 0) :
    sysM s = outAll s := by
  have harr : s.queue.arr = [] := List.eq_nil_of_length_eq_zero hq
  have hrems : (s.blocks.map merge_block.rem).flatten = [] := by
    rw [List.flatten_eq_nil_iff]
    intro b hb
    obtain ⟨blk, hblk, rfl⟩ := List.mem_map.mp hb
    obtain ⟨i, hi, hgi⟩ := List.mem_iff_getElem.mp hblk
    have hd := h.dead i hi (by rw [harr]; simp)
    rw [List.getD_eq_getElem _ _ hi, hgi] at hd
    exact hd
  unfold sysM
  rw [harr, hrems]
  simp

theorem foldl_kpush_spec :
    ∀ (els : List heap_el) (s : MergeSt),
      s.queue.count + els.length ≤ s.queue.capacity → HeapInv s.queue →
      (els.foldl kpush s).blocks = s.blocks ∧
      (els.foldl kpush s).out = s.out ∧
      (els.foldl kpush s).outFile = s.outFile ∧
      (els.foldl kpush s).aok = s.aok ∧
      (els.foldl kpush s).queue.capacity = s.queue.capacity ∧
      HeapInv (els.foldl kpush s).queue ∧
      (els.foldl kpush s).queue.arr.Perm (els ++ s.queue.arr) := by
  intro els
  induction els with
  | nil =>
    intro s _ hinv
    exact ⟨rfl, rfl, rfl, rfl, rfl, hinv, by simp⟩
  | cons e els ih =>
    intro s hcap hinv
    simp only [List.foldl_cons]
    have hc : s.queue.count < s.queue.capacity := by
      simp only [List.length_cons] at hcap
      omega
    obtain ⟨hb, ho, hf, ha, hq⟩ := kpush_spec s e hc
    have hquc : (kpush s e).queue.count = s.queue.count + 1 := by
      rw [hq]
      exact heap_insert_count _ _
    have hqcap : (kpush s e).queue.capacity = s.queue.capacity := by
      rw [hq]
      exact heap_insert_capacity _ _
    have hcap2 : (kpush s e).queue.count + els.length ≤ (kpush s e).queue.capacity := by
      rw [hquc, hqcap]
      simp only [List.length_cons] at hcap
      omega
    have hinv2 : HeapInv (kpush s e).queue := by
      rw [hq]
      exact heap_insert_heapinv _ _ hinv
    obtain ⟨b2, o2, f2, a2, c2, i2, p2⟩ := ih (kpush s e) hcap2 hinv2
    refine ⟨b2.trans hb, o2.trans ho, f2.trans hf, a2.trans ha,
      c2.trans hqcap, i2, ?_⟩
    have hip : (kpush s e).queue.arr.Perm (e :: s.queue.arr) := by
      rw [hq]
      exact heap_insert_perm _ _
    exact p2.trans ((List.Perm.append_left els hip).trans List.perm_middle)

theorem getD_map_of_lt {α β : Type} (g : α → β) (l : List α) {i : Nat}
    (h : i < l.length) (d : β) (d2 : α) :
    (l.map g).getD i d = g (l.getD i d2) := by
  rw [List.getD_eq_getElem _ _ (by simpa using h), List.getElem_map,
    List.getD_eq_getElem _ _ h]

theorem range_map_getD {α β : Type} (d : α) (l : List α) (g : α → β) :
    (List.range l.length).map (fun i => g (l.getD i d)) = l.map g := by
  apply List.ext_getElem
  · simp
  · intro j hj1 hj2
    simp only [List.getElem_map, List.getElem_range]
    rw [List.getD_eq_getElem _ _ (by simpa using hj2)]

theorem prime_head_rem (bs : Nat) (hbs : 1 ≤ bs) (f : List Int) (hf : f ≠ []) :
    ((f.take bs).getD 0 0) :: ((f.take bs).drop 1 ++ f.drop bs) = f := by
  obtain ⟨x, t, rfl⟩ := List.exists_cons_of_ne_nil hf
  match bs, hbs with
  | bs + 1, _ =>
    simp only [List.take_succ_cons, List.drop_succ_cons, List.getD_cons_zero,
      List.drop_zero]
    rw [List.take_append_drop]

theorem keys_rems_perm (bs : Nat) (hbs : 1 ≤ bs) :
    ∀ (files : List (List Int)), (∀ f ∈ files, f ≠ []) →
      ((files.map (fun f => (f.take bs).getD 0 0)) ++
        (files.map (fun f => (f.take bs).drop 1 ++ f.drop bs)).flatten).Perm
        files.flatten := by
  intro files
  induction files with
  | nil => intro _; simp
  | cons f fs ih =>
    intro hne
    have hf : f ≠ [] := hne f (List.mem_cons_self ..)
    have hfr := prime_head_rem bs hbs f hf
    refine List.perm_iff_count.mpr ?_
    intro a
    have hc := (ih (fun g hg => hne g (List.mem_cons_of_mem f hg))).count_eq a
    have hcf : List.count a f =
        List.count a ((f.take bs).drop 1 ++ f.drop bs) +
          (if (f.take bs).getD 0 0 == a then 1 else 0) := by
      conv_lhs => rw [← hfr]
      rw [List.count_cons]
    simp only [List.map_cons, List.flatten_cons, List.count_append,
      List.count_cons, List.count_nil] at hc hcf ⊢
    omega

theorem foldl_add_length (files : List (List Int)) :
    files.foldl (fun n f => n + f.length) 0 = (files.map List.length).sum := by
  have hgen : ∀ (l : List (List Int)) (a : Nat),
      l.foldl (fun n f => n + f.length) a = a + (l.map List.length).sum := by
    intro l
    induction l with
    | nil => intro a; simp
    | cons f fs ih =>
      intro a
      simp only [List.foldl_cons, List.map_cons, List.sum_cons, ih]
      omega
  simpa using hgen files 0

theorem kmerge_prime_eq (bs : Nat) (files : List (List Int)) :
    kmerge_prime bs files =
      ((List.range files.length).map
        (fun i => (⟨((files.getD i []).take bs).getD 0 0, i⟩ : heap_el))).foldl kpush
        ⟨files.map (fun f => ⟨f.take bs, 1, f.drop bs⟩), ⟨NMERGE, []⟩, [], [], true⟩ := by
  unfold kmerge_prime
  rw [List.foldl_map]

theorem kmerge_prime_spec (bs : Nat) (files : List (List Int)) (hbs : 1 ≤ bs)
    (hm : files.length ≤ NMERGE) (hne : ∀ f ∈ files, f ≠ []) :
    MInv (kmerge_prime bs files) ∧
    (sysM (kmerge_prime bs files)).Perm files.flatten ∧
    measureM (kmerge_prime bs files) ≤
      files.foldl (fun n f => n + f.length) 0 + files.length ∧
    ((∀ f ∈ files, f.Sorted (· ≤ ·)) → SInv (kmerge_prime bs files)) := by
  rw [kmerge_prime_eq]
  obtain ⟨hb, ho, hf, ha, hc, hi, hp⟩ := foldl_kpush_spec
    ((List.range files.length).map
      (fun i => (⟨((files.getD i []).take bs).getD 0 0, i⟩ : heap_el)))
    ⟨files.map (fun f => ⟨f.take bs, 1, f.drop bs⟩), ⟨NMERGE, []⟩, [], [], true⟩
    (by simpa [Heap.count] using hm)
    (by intro j hj hj0; simp at hj)
  set st := ((List.range files.length).map
      (fun i => (⟨((files.getD i []).take bs).getD 0 0, i⟩ : heap_el))).foldl kpush
      ⟨files.map (fun f => ⟨f.take bs, 1, f.drop bs⟩), ⟨NMERGE, []⟩, [], [], true⟩ with hst
  have hparr : st.queue.arr.Perm
      ((List.range files.length).map
        (fun i => (⟨((files.getD i []).take bs).getD 0 0, i⟩ : heap_el))) := by
    have := hp
    simpa using this
  have hidxmap : (((List.range files.length).map
      (fun i => (⟨((files.getD i []).take bs).getD 0 0, i⟩ : heap_el))).map
        heap_el.idx) = List.range files.length := by
    rw [List.map_map]
    simp [Function.comp_def]
  have hkeymap : (((List.range files.length).map
      (fun i => (⟨((files.getD i []).take bs).getD 0 0, i⟩ : heap_el))).map
        heap_el.key) = files.map (fun f => (f.take bs).getD 0 0) := by
    rw [List.map_map]
    exact range_map_getD [] files (fun f => (f.take bs).getD 0 0)
  have hblen : st.blocks.length = files.length := by rw [hb]; simp
  have hgetblk : ∀ i, i < files.length →
      st.blocks.getD i default = ⟨(files.getD i []).take bs, 1, (files.getD i []).drop bs⟩ := by
    intro i hilt
    rw [hb, getD_map_of_lt _ files hilt default []]
  have hremmap : st.blocks.map merge_block.rem =
      files.map (fun f => (f.take bs).drop 1 ++ f.drop bs) := by
    rw [hb, List.map_map]
    rfl
  have hwin : ∀ i, i < files.length → files.getD i [] ≠ [] := by
    intro i hilt
    apply hne
    rw [List.getD_eq_getElem _ _ hilt]
    exact List.getElem_mem hilt
  have houtAll : outAll st = [] := by
    unfold outAll
    rw [ho, hf]
    rfl
  refine ⟨⟨?_, ?_, ?_, ?_, ?_, ?_, hi, ?_⟩, ?_, ?_, ?_⟩
  · exact hc
  · rw [hblen]; exact hm
  · intro e2 he2
    have := hparr.subset he2
    obtain ⟨i, hir, he⟩ := List.mem_map.mp this
    rw [← he, hblen]
    simpa using hir
  · have : (st.queue.arr.map heap_el.idx).Perm (List.range files.length) := by
      have := hparr.map heap_el.idx
      rwa [hidxmap] at this
    rw [this.nodup_iff]
    exact List.nodup_range files.length
  · intro i hilt hni
    exfalso
    apply hni
    have hpm : (st.queue.arr.map heap_el.idx).Perm (List.range files.length) := by
      have := hparr.map heap_el.idx
      rwa [hidxmap] at this
    rw [hpm.mem_iff, List.mem_range]
    rw [hblen] at hilt
    exact hilt
  · intro i hilt hwz
    rw [hblen] at hilt
    rw [hgetblk i hilt] at hwz ⊢
    simp only at hwz ⊢
    have : files.getD i [] = [] := by
      by_contra hneq
      obtain ⟨x, t, hx⟩ := List.exists_cons_of_ne_nil hneq
      rw [hx, List.length_take] at hwz
      simp only [List.length_cons] at hwz
      omega
    rw [this]
    simp
  · exact ha
  · unfold sysM
    rw [houtAll, hremmap]
    have hkp : (st.queue.arr.map heap_el.key).Perm
        (files.map (fun f => (f.take bs).getD 0 0)) := by
      have := hparr.map heap_el.key
      rwa [hkeymap] at this
    simp only [List.nil_append]
    exact (List.Perm.append hkp (List.Perm.refl _)).trans (keys_rems_perm bs hbs files hne)
  · unfold measureM
    have hcnt : st.queue.count = files.length := by
      have := hparr.length_eq
      simp only [Heap.count]
      simpa using this
    have hlenflat : ((st.blocks.map merge_block.rem).flatten).length ≤
        (files.map List.length).sum := by
      rw [hremmap]
      have hlen2 : ∀ (fs : List (List Int)),
          ((fs.map (fun f => (f.take bs).drop 1 ++ f.drop bs)).flatten).length ≤
            (fs.map List.length).sum := by
        intro fs
        induction fs with
        | nil => simp
        | cons g gs ihg =>
          simp only [List.map_cons, List.flatten_cons, List.length_append,
            List.sum_cons, List.length_drop, List.length_take]
          omega
      exact hlen2 files
    rw [hcnt, foldl_add_length]
    omega
  · intro hsort
    refine ⟨?_, ?_, ?_⟩
    · intro e2 he2
      obtain ⟨i, hir, he⟩ := List.mem_map.mp (hparr.subset he2)
      rw [List.mem_range] at hir
      rw [← he]
      simp only
      rw [hgetblk i hir]
      unfold merge_block.rem
      simp only
      rw [prime_head_rem bs hbs (files.getD i []) (hwin i hir)]
      apply hsort
      rw [List.getD_eq_getElem _ _ hir]
      exact List.getElem_mem hir
    · rw [houtAll]
      simp
    · intro y hy
      rw [houtAll] at hy
      simp at hy

theorem kpush_blocks (s : MergeSt) (el : heap_el) : (kpush s el).blocks = s.blocks := by
  unfold kpush
  split <;> rfl

theorem foldl_kpush_blocks (els : List heap_el) (s : MergeSt) :
    (els.foldl kpush s).blocks = s.blocks := by
  induction els generalizing s with
  | nil => rfl
  | cons e els ih =>
    simp only [List.foldl_cons]
    rw [ih, kpush_blocks]

theorem kmerge_prime_blocks_len (bs : Nat) (files : List (List Int)) :
    (kmerge_prime bs files).blocks.length = files.length := by
  rw [kmerge_prime_eq, foldl_kpush_blocks]
  simp

theorem kmerge_refill_blocks_len (bs : Nat) (s1 : MergeSt) (idx : Nat) :
    (kmerge_refill bs s1 idx).blocks.length = s1.blocks.length := by
  simp only [kmerge_refill]
  split
  · rfl
  · split
    · rw [kpush_blocks]
      simp
    · split
      · rw [kpush_blocks]
        simp
      · simp

theorem kmerge_step_blocks_len (bs : Nat) (s : MergeSt) :
    (kmerge_step bs s).blocks.length = s.blocks.length := by
  have h1 : kmerge_step bs s = kmerge_refill bs
      (kmerge_emit bs s (heap_pop s.queue).2 (heap_pop s.queue).1.key)
      (heap_pop s.queue).1.idx := rfl
  rw [h1, kmerge_refill_blocks_len, kmerge_emit_blocks]

theorem kmerge_loop_blocks_len (bs : Nat) :
    ∀ (fuel : Nat) (s : MergeSt),
      (kmerge_loop bs fuel s).blocks.length = s.blocks.length := by
  intro fuel
  induction fuel with
  | zero => intro s; rfl
  | succ fuel ih =>
    intro s
    simp only [kmerge_loop]
    split
    · rfl
    · rw [ih, kmerge_step_blocks_len]

/-- The per-group merge emits exactly the elements of its input files (as a
multiset), and no `heap_insert` capacity assert is ever violated. -/
theorem kmerge_group_spec (bs : Nat) (files : List (List Int)) (hbs : 1 ≤ bs)
    (hm : files.length ≤ NMERGE) (hne : ∀ f ∈ files, f ≠ []) :
    (kmerge_merge_files bs files).Perm files.flatten ∧
    (kmerge_group_run bs files).aok = true := by
  obtain ⟨hminv, hsys, hmeas, _⟩ := kmerge_prime_spec bs files hbs hm hne
  obtain ⟨hminv2, hsys2⟩ := kmerge_loop_minv bs hbs
    (files.foldl (fun n f => n + f.length) 0 + files.length) _ hminv
  have hdrain := kmerge_loop_drain bs hbs
    (files.foldl (fun n f => n + f.length) 0 + files.length) _ hminv hmeas
  have hfin := minv_final _ hminv2 hdrain
  constructor
  · have hout : kmerge_merge_files bs files =
        outAll (kmerge_loop bs
          (files.foldl (fun n f => n + f.length) 0 + files.length)
          (kmerge_prime bs files)) := rfl
    rw [hout, ← hfin]
    exact hsys2.trans hsys
  · exact hminv2.mok

/-- With sorted input files, the per-group merge emits a sorted output. -/
theorem kmerge_group_sorted (bs : Nat) (files : List (List Int)) (hbs : 1 ≤ bs)
    (hm : files.length ≤ NMERGE) (hne : ∀ f ∈ files, f ≠ [])
    (hsort : ∀ f ∈ files, f.Sorted (· ≤ ·)) :
    (kmerge_merge_files bs files).Sorted (· ≤ ·) := by
  obtain ⟨hminv, _, _, hsinv⟩ := kmerge_prime_spec bs files hbs hm hne
  have hs := kmerge_loop_sinv bs hbs
    (files.foldl (fun n f => n + f.length) 0 + files.length) _ hminv (hsinv hsort)
  exact hs.osorted

/-- At every point of the pump loop the queue holds at most one element per
input stream (so at most `files.length ≤ 16`), and every `heap_insert` has met
its `assert(count < capacity)`. -/
theorem kmerge_pump_bound (bs : Nat) (files : List (List Int)) (hbs : 1 ≤ bs)
    (hm : files.length ≤ NMERGE) (hne : ∀ f ∈ files, f ≠ []) (fuel : Nat) :
    (kmerge_loop bs fuel (kmerge_prime bs files)).queue.count ≤ files.length ∧
    (kmerge_loop bs fuel (kmerge_prime bs files)).aok = true := by
  obtain ⟨hminv, _, _, _⟩ := kmerge_prime_spec bs files hbs hm hne
  obtain ⟨h2, _⟩ := kmerge_loop_minv bs hbs fuel _ hminv
  refine ⟨le_trans h2.count_le ?_, h2.mok⟩
  rw [kmerge_loop_blocks_len, kmerge_prime_blocks_len]

/-! ### stage arithmetic (claim C6) -/

theorem nat_ceil_div_eq_ceilDiv (a b : Nat) (hb : 0 < b) :
    ⌈(a : ℚ) / (b : ℚ)⌉₊ = a ⌈/⌉ b := by
  rcases Nat.eq_zero_or_pos a with rfl | ha
  · simp
  · have hbq : (0 : ℚ) < (b : ℚ) := by positivity
    have hn0 : a ⌈/⌉ b ≠ 0 := by
      intro he
      have h1 : a ⌈/⌉ b ≤ 0 := le_of_eq he
      rw [ceilDiv_le_iff_le_mul hb] at h1
      simp at h1
      omega
    rw [Nat.ceil_eq_iff hn0]
    constructor
    · have h1 : ¬ (a ⌈/⌉ b ≤ a ⌈/⌉ b - 1) := by omega
      rw [ceilDiv_le_iff_le_mul hb] at h1
      have h2 : b * (a ⌈/⌉ b - 1) < a := by omega
      rw [lt_div_iff₀ hbq]
      have h3 := (Nat.cast_lt (α := ℚ)).mpr h2
      push_cast [Nat.cast_sub (by omega : 1 ≤ a ⌈/⌉ b)] at h3 ⊢
      linarith
    · have h1 : a ≤ b * (a ⌈/⌉ b) := (ceilDiv_le_iff_le_mul hb).mp le_rfl
      rw [div_le_iff₀ hbq]
      have h3 := (Nat.cast_le (α := ℚ)).mpr h1
      push_cast at h3
      linarith

theorem ceilDiv_ceilDiv (a m n : Nat) (hm : 0 < m) (hn : 0 < n) :
    a ⌈/⌉ (m * n) = (a ⌈/⌉ m) ⌈/⌉ n := by
  have hmn : 0 < m * n := Nat.mul_pos hm hn
  apply Nat.le_antisymm
  · rw [ceilDiv_le_iff_le_mul hmn]
    have h1 : a ⌈/⌉ m ≤ n * ((a ⌈/⌉ m) ⌈/⌉ n) := (ceilDiv_le_iff_le_mul hn).mp le_rfl
    have h2 : a ≤ m * (a ⌈/⌉ m) := (ceilDiv_le_iff_le_mul hm).mp le_rfl
    calc a ≤ m * (a ⌈/⌉ m) := h2
      _ ≤ m * (n * ((a ⌈/⌉ m) ⌈/⌉ n)) := Nat.mul_le_mul_left m h1
      _ = m * n * ((a ⌈/⌉ m) ⌈/⌉ n) := by ring
  · rw [ceilDiv_le_iff_le_mul hn, ceilDiv_le_iff_le_mul hm]
    have h1 : a ≤ m * n * (a ⌈/⌉ (m * n)) := (ceilDiv_le_iff_le_mul hmn).mp le_rfl
    calc a ≤ m * n * (a ⌈/⌉ (m * n)) := h1
      _ = m * (n * (a ⌈/⌉ (m * n))) := by ring

theorem kmerge_calc_stage_files_eq (fcount stage : Nat) :
    kmerge_calc_stage_files fcount stage = fcount ⌈/⌉ 16 ^ stage := by
  unfold kmerge_calc_stage_files
  split
  · rename_i h0
    rw [h0]
    simp
  · rw [show ((16 : ℚ) ^ stage) = (((16 ^ stage : Nat)) : ℚ) from by push_cast; ring]
    exact nat_ceil_div_eq_ceilDiv fcount (16 ^ stage) (Nat.pos_pow_of_pos _ (by norm_num))

theorem kmerge_calc_stage_files_rec (fcount stage : Nat) :
    kmerge_calc_stage_files fcount (stage + 1) =
      (kmerge_calc_stage_files fcount stage) ⌈/⌉ 16 := by
  rw [kmerge_calc_stage_files_eq, kmerge_calc_stage_files_eq, pow_succ]
  exact ceilDiv_ceilDiv fcount (16 ^ stage) 16
    (Nat.pos_pow_of_pos _ (by norm_num)) (by norm_num)

theorem kmerge_calc_stages_go_le (fcount : Nat) :
    ∀ (fuel s0 : Nat), fcount ≤ 16 ^ (s0 + fuel) →
      fcount ≤ 16 ^ (kmerge_calc_stages_go fcount fuel s0) := by
  intro fuel
  induction fuel with
  | zero =>
    intro s0 hf
    simpa using hf
  | succ fuel ih =>
    intro s0 hf
    simp only [kmerge_calc_stages_go]
    split
    · rename_i hc
      exact hc
    · exact ih (s0 + 1) (by rw [show s0 + 1 + fuel = s0 + (fuel + 1) from by omega]; exact hf)

theorem kmerge_calc_stages_go_min (fcount : Nat) :
    ∀ (fuel s0 t : Nat), s0 ≤ t → fcount ≤ 16 ^ t →
      kmerge_calc_stages_go fcount fuel s0 ≤ t := by
  intro fuel
  induction fuel with
  | zero => intro s0 t hst _; simpa using hst
  | succ fuel ih =>
    intro s0 t hst ht
    simp only [kmerge_calc_stages_go]
    split
    · exact hst
    · rename_i hc
      have hs0t : s0 < t := by
        rcases Nat.lt_or_ge s0 t with h | h
        · exact h
        · have : s0 = t := by omega
          rw [this] at hc
          exact absurd ht hc
      exact ih (s0 + 1) t (by omega) ht

theorem kmerge_calc_stages_le_pow (fcount : Nat) :
    fcount ≤ 16 ^ kmerge_calc_stages fcount := by
  unfold kmerge_calc_stages
  apply kmerge_calc_stages_go_le
  have h1 : fcount < 16 ^ fcount := Nat.lt_pow_self (by norm_num) fcount
  simpa using le_of_lt h1

theorem kmerge_calc_stages_eq_clog (fcount : Nat) :
    kmerge_calc_stages fcount = Nat.clog 16 fcount := by
  apply Nat.le_antisymm
  · unfold kmerge_calc_stages
    apply kmerge_calc_stages_go_min fcount fcount 0 _ (by omega)
    exact Nat.le_pow_clog (by norm_num) fcount
  · rw [← Nat.le_pow_iff_clog_le (by norm_num)]
    exact kmerge_calc_stages_le_pow fcount

theorem kmerge_calc_stages_terminal (fcount : Nat) (hf : 1 ≤ fcount) :
    kmerge_calc_stage_files fcount (kmerge_calc_stages fcount) = 1 := by
  rw [kmerge_calc_stage_files_eq]
  apply Nat.le_antisymm
  · rw [ceilDiv_le_iff_le_mul (Nat.pos_pow_of_pos _ (by norm_num))]
    simpa using kmerge_calc_stages_le_pow fcount
  · by_contra hlt
    have h0 : fcount ⌈/⌉ 16 ^ kmerge_calc_stages fcount = 0 := by omega
    have h1 : fcount ⌈/⌉ 16 ^ kmerge_calc_stages fcount ≤ 0 := le_of_eq h0
    rw [ceilDiv_le_iff_le_mul (Nat.pos_pow_of_pos _ (by norm_num))] at h1
    simp at h1
    omega

/-! ### stage and all-stage composition -/

theorem kmerge_merge_stage_go_spec (bs : Nat) (hbs : 1 ≤ bs) :
    ∀ (fuel : Nat) (fs : List (List Int)), fs.length ≤ fuel →
      (∀ f ∈ fs, f ≠ []) →
      (kmerge_merge_stage_go bs fuel fs).flatten.Perm fs.flatten ∧
      (∀ g ∈ kmerge_merge_stage_go bs fuel fs, g ≠ []) ∧
      (kmerge_merge_stage_go bs fuel fs).length = fs.length ⌈/⌉ NMERGE := by
  intro fuel
  induction fuel with
  | zero =>
    intro fs hlen hne
    have h0 : fs.length = 0 := Nat.le_zero.mp hlen
    simp only [kmerge_merge_stage_go]
    refine ⟨by simp [List.length_eq_zero.mp h0], by simp, ?_⟩
    rw [h0]
    simp
  | succ fuel ih =>
    intro fs hlen hne
    simp only [kmerge_merge_stage_go]
    split
    · rename_i h0
      refine ⟨by simp [List.length_eq_zero.mp h0], by simp, ?_⟩
      rw [h0]
      simp
    · split
      · rename_i h0 h1
        obtain ⟨a, rfl⟩ := List.length_eq_one.mp h1
        have ha : a ≠ [] := hne a (by simp)
        refine ⟨by simp [kmerge_copy], ?_, ?_⟩
        · intro g hg
          simp [kmerge_copy] at hg
          rw [hg]
          exact ha
        · norm_num [NMERGE, Nat.ceilDiv_eq_add_pred_div, kmerge_copy]
      · split
        · rename_i h0 h1 h2
          have hflat : fs.flatten ≠ [] := by
            obtain ⟨f, hf⟩ := List.exists_mem_of_ne_nil fs
              (fun he => h0 (by rw [he]; simp))
            obtain ⟨x, hx⟩ := List.exists_mem_of_ne_nil f (hne f hf)
            intro he
            have : x ∈ fs.flatten := List.mem_flatten.mpr ⟨f, hf, hx⟩
            rw [he] at this
            exact absurd this (List.not_mem_nil x)
          obtain ⟨hperm, _⟩ := kmerge_group_spec bs fs hbs h2 hne
          refine ⟨by simpa using hperm, ?_, ?_⟩
          · intro g hg
            simp at hg
            rw [hg]
            intro he
            rw [he] at hperm
            exact hflat (List.Perm.nil_eq hperm).symm
          · have hl1 : 1 ≤ fs.length := by omega
            simp only [List.length_cons, List.length_nil]
            rw [Nat.ceilDiv_eq_add_pred_div]
            simp only [NMERGE] at h2 ⊢
            omega
        · rename_i h0 h1 h2
          have htl : (fs.take NMERGE).length = NMERGE := by
            rw [List.length_take]
            simp only [NMERGE] at h2 ⊢
            omega
          have hne1 : ∀ f ∈ fs.take NMERGE, f ≠ [] :=
            fun f hf => hne f (List.mem_of_mem_take hf)
          have hne2 : ∀ f ∈ fs.drop NMERGE, f ≠ [] :=
            fun f hf => hne f (List.mem_of_mem_drop hf)
          have hdlen : (fs.drop NMERGE).length ≤ fuel := by
            rw [List.length_drop]
            simp only [NMERGE] at h2 ⊢
            omega
          obtain ⟨ihperm, ihne, ihlen⟩ := ih (fs.drop NMERGE) hdlen hne2
          obtain ⟨hgp, _⟩ := kmerge_group_spec bs (fs.take NMERGE) hbs (le_of_eq htl) hne1
          have hflat1 : (fs.take NMERGE).flatten ≠ [] := by
            have hmem : fs.take NMERGE ≠ [] := by
              intro he
              rw [he] at htl
              simp [NMERGE] at htl
            obtain ⟨f, hf⟩ := List.exists_mem_of_ne_nil _ hmem
            obtain ⟨x, hx⟩ := List.exists_mem_of_ne_nil f (hne1 f hf)
            intro he
            have : x ∈ (fs.take NMERGE).flatten := List.mem_flatten.mpr ⟨f, hf, hx⟩
            rw [he] at this
            exact absurd this (List.not_mem_nil x)
          refine ⟨?_, ?_, ?_⟩
          · rw [List.flatten_cons]
            have h3 : (fs.take NMERGE).flatten ++
                (kmerge_merge_stage_go bs fuel (fs.drop NMERGE)).flatten =
                (fs.take NMERGE).flatten ++
                (kmerge_merge_stage_go bs fuel (fs.drop NMERGE)).flatten := rfl
            have h4 := hgp.append ihperm
            have h5 : (fs.take NMERGE).flatten ++ (fs.drop NMERGE).flatten =
                fs.flatten := by
              rw [← List.flatten_append, List.take_append_drop]
            rw [h5] at h4
            exact h4
          · intro g hg
            rcases List.mem_cons.mp hg with rfl | hg2
            · intro he
              rw [he] at hgp
              exact hflat1 (List.Perm.nil_eq hgp).symm
            · exact ihne g hg2
          · simp only [List.length_cons]
            rw [ihlen, List.length_drop]
            rw [Nat.ceilDiv_eq_add_pred_div, Nat.ceilDiv_eq_add_pred_div]
            simp only [NMERGE] at h2 ⊢
            omega

theorem kmerge_merge_stage_go_sorted (bs : Nat) (hbs : 1 ≤ bs) :
    ∀ (fuel : Nat) (fs : List (List Int)), fs.length ≤ fuel →
      (∀ f ∈ fs, f ≠ []) → (∀ f ∈ fs, f.Sorted (· ≤ ·)) →
      ∀ g ∈ kmerge_merge_stage_go bs fuel fs, g.Sorted (· ≤ ·) := by
  intro fuel
  induction fuel with
  | zero =>
    intro fs _ _ _ g hg
    simp [kmerge_merge_stage_go] at hg
  | succ fuel ih =>
    intro fs hlen hne hsort g hg
    simp only [kmerge_merge_stage_go] at hg
    split at hg
    · simp at hg
    · split at hg
      · rename_i h0 h1
        obtain ⟨a, rfl⟩ := List.length_eq_one.mp h1
        simp [kmerge_copy] at hg
        rw [hg]
        exact hsort a (by simp)
      · split at hg
        · rename_i h0 h1 h2
          simp at hg
          rw [hg]
          exact kmerge_group_sorted bs fs hbs h2 hne hsort
        · rename_i h0 h1 h2
          have htl : (fs.take NMERGE).length = NMERGE := by
            rw [List.length_take]
            simp only [NMERGE] at h2 ⊢
            omega
          rcases List.mem_cons.mp hg with rfl | hg2
          · exact kmerge_group_sorted bs (fs.take NMERGE) hbs (le_of_eq htl)
              (fun f hf => hne f (List.mem_of_mem_take hf))
              (fun f hf => hsort f (List.mem_of_mem_take hf))
          · exact ih (fs.drop NMERGE)
              (by rw [List.length_drop]; simp only [NMERGE] at h2 ⊢; omega)
              (fun f hf => hne f (List.mem_of_mem_drop hf))
              (fun f hf => hsort f (List.mem_of_mem_drop hf)) g hg2

theorem kmerge_merge_stage_spec (bs : Nat) (hbs : 1 ≤ bs) (fs : List (List Int))
    (hne : ∀ f ∈ fs, f ≠ []) :
    (kmerge_merge_stage bs fs).flatten.Perm fs.flatten ∧
    (∀ g ∈ kmerge_merge_stage bs fs, g ≠ []) ∧
    (kmerge_merge_stage bs fs).length = fs.length ⌈/⌉ NMERGE :=
  kmerge_merge_stage_go_spec bs hbs fs.length fs le_rfl hne

theorem kmerge_merge_stage_sorted (bs : Nat) (hbs : 1 ≤ bs) (fs : List (List Int))
    (hne : ∀ f ∈ fs, f ≠ []) (hsort : ∀ f ∈ fs, f.Sorted (· ≤ ·)) :
    ∀ g ∈ kmerge_merge_stage bs fs, g.Sorted (· ≤ ·) :=
  kmerge_merge_stage_go_sorted bs hbs fs.length fs le_rfl hne hsort

theorem kmerge_merge_all_spec (bs : Nat) (hbs : 1 ≤ bs) :
    ∀ (stages : Nat) (fs : List (List Int)), (∀ f ∈ fs, f ≠ []) →
      (∀ f ∈ fs, f.Sorted (· ≤ ·)) →
      (kmerge_merge_all bs stages fs).flatten.Perm fs.flatten ∧
      (∀ g ∈ kmerge_merge_all bs stages fs, g ≠ []) ∧
      (∀ g ∈ kmerge_merge_all bs stages fs, g.Sorted (· ≤ ·)) ∧
      (kmerge_merge_all bs stages fs).length = fs.length ⌈/⌉ NMERGE ^ stages := by
  intro stages
  induction stages with
  | zero =>
    intro fs hne hsort
    refine ⟨List.Perm.refl _, hne, hsort, ?_⟩
    simp [kmerge_merge_all, Nat.ceilDiv_eq_add_pred_div]
  | succ stages ih =>
    intro fs hne hsort
    obtain ⟨h1, h2, h3⟩ := kmerge_merge_stage_spec bs hbs fs hne
    have h4 := kmerge_merge_stage_sorted bs hbs fs hne hsort
    obtain ⟨ih1, ih2, ih3, ih4⟩ := ih (kmerge_merge_stage bs fs) h2 h4
    simp only [kmerge_merge_all]
    refine ⟨ih1.trans h1, ih2, ih3, ?_⟩
    rw [ih4, h3, ← ceilDiv_ceilDiv fs.length NMERGE (NMERGE ^ stages)
      (by norm_num [NMERGE]) (Nat.pos_pow_of_pos _ (by norm_num [NMERGE]))]
    rw [pow_succ']

theorem kmerge_merge_all_perm (bs : Nat) (hbs : 1 ≤ bs) :
    ∀ (stages : Nat) (fs : List (List Int)), (∀ f ∈ fs, f ≠ []) →
      (kmerge_merge_all bs stages fs).flatten.Perm fs.flatten ∧
      (∀ g ∈ kmerge_merge_all bs stages fs, g ≠ []) ∧
      (kmerge_merge_all bs stages fs).length = fs.length ⌈/⌉ NMERGE ^ stages := by
  intro stages
  induction stages with
  | zero =>
    intro fs hne
    refine ⟨List.Perm.refl _, hne, ?_⟩
    simp [kmerge_merge_all, Nat.ceilDiv_eq_add_pred_div]
  | succ stages ih =>
    intro fs hne
    obtain ⟨h1, h2, h3⟩ := kmerge_merge_stage_spec bs hbs fs hne
    obtain ⟨ih1, ih2, ih4⟩ := ih (kmerge_merge_stage bs fs) h2
    simp only [kmerge_merge_all]
    refine ⟨ih1.trans h1, ih2, ?_⟩
    rw [ih4, h3, ← ceilDiv_ceilDiv fs.length NMERGE (NMERGE ^ stages)
      (by norm_num [NMERGE]) (Nat.pos_pow_of_pos _ (by norm_num [NMERGE]))]
    rw [pow_succ']

theorem kmerge_merge_perm (buf_nmemb : Nat) (files : List (List Int))
    (hbuf : NMERGE < buf_nmemb) (hfs : files ≠ [])
    (hne : ∀ f ∈ files, f ≠ []) :
    (kmerge_merge buf_nmemb files).Perm files.flatten := by
  have hbs : 1 ≤ buf_nmemb / (NMERGE + 1) := by
    apply Nat.one_le_div_iff (by norm_num [NMERGE]) |>.mpr
    simp only [NMERGE] at hbuf ⊢
    omega
  obtain ⟨h1, h2, h4⟩ := kmerge_merge_all_perm (buf_nmemb / (NMERGE + 1)) hbs
    (kmerge_calc_stages files.length) files hne
  have hf1 : 1 ≤ files.length := by
    rcases files with _ | ⟨a, fs⟩
    · exact absurd rfl hfs
    · simp
  have hterm : (kmerge_merge_all (buf_nmemb / (NMERGE + 1))
      (kmerge_calc_stages files.length) files).length = 1 := by
    rw [h4]
    have := kmerge_calc_stages_terminal files.length hf1
    rw [kmerge_calc_stage_files_eq] at this
    simpa [NMERGE] using this
  obtain ⟨a, ha⟩ := List.length_eq_one.mp hterm
  unfold kmerge_merge
  simp only
  rw [ha]
  simp only [List.headD_cons]
  rw [ha] at h1
  simpa using h1

theorem kmerge_merge_spec (buf_nmemb : Nat) (files : List (List Int))
    (hbuf : NMERGE < buf_nmemb) (hfs : files ≠ [])
    (hne : ∀ f ∈ files, f ≠ []) (hsort : ∀ f ∈ files, f.Sorted (· ≤ ·)) :
    (kmerge_merge buf_nmemb files).Perm files.flatten ∧
    (kmerge_merge buf_nmemb files).Sorted (· ≤ ·) := by
  have hbs : 1 ≤ buf_nmemb / (NMERGE + 1) := by
    apply Nat.one_le_div_iff (by norm_num [NMERGE]) |>.mpr
    simp only [NMERGE] at hbuf ⊢
    omega
  obtain ⟨h1, h2, h3, h4⟩ := kmerge_merge_all_spec (buf_nmemb / (NMERGE + 1)) hbs
    (kmerge_calc_stages files.length) files hne hsort
  have hf1 : 1 ≤ files.length := by
    rcases files with _ | ⟨a, fs⟩
    · exact absurd rfl hfs
    · simp
  have hterm : (kmerge_merge_all (buf_nmemb / (NMERGE + 1))
      (kmerge_calc_stages files.length) files).length = 1 := by
    rw [h4]
    have := kmerge_calc_stages_terminal files.length hf1
    rw [kmerge_calc_stage_files_eq] at this
    simpa [NMERGE] using this
  obtain ⟨a, ha⟩ := List.length_eq_one.mp hterm
  unfold kmerge_merge
  simp only
  rw [ha]
  simp only [List.headD_cons]
  rw [ha] at h1 h3
  simp only [List.flatten_cons, List.flatten_nil, List.append_nil] at h1
  exact ⟨h1, h3 a (by simp)⟩

/-! ## main.c / tools.c : the text pipeline -/

/-- `isspace` of ctype.h (C locale). -/
def c_isspace (c : Char) : Bool :=
  c = ' ' || c = '\t' || c = '\n' || c = '\x0b' || c = '\x0c' || c = '\r'

/-- A decimal digit test, as `strtol` classifies characters in base 10. -/
def c_isdigit (c : Char) : Bool := '0' ≤ c && c ≤ '9'

/-- Decimal digits, most significant first, to the number they denote (the
accumulation `strtol` performs). -/
def digitsToNat (ds : List Char) : Nat :=
  ds.foldl (fun a c => 10 * a + (c.toNat - 48)) 0

/-- `INT_MAX` for the target `int`. -/
def INT_MAX : Int := 2147483647

/-- `INT_MIN` for the target `int`. -/
def INT_MIN : Int := -2147483648

/-- `str2int` from tools.c with base 10: rejects the empty string and a
leading whitespace, lets `strtol` consume an optional sign and a maximal
digit run, rejects a value outside `int` range (`strtol` clamping to
`LONG_MAX`/`LONG_MIN` with `ERANGE` is also outside `int` range) and rejects
any trailing character (`*end != '\0'`). -/
def str2int (s : List Char) : Option Int :=
  match s with
  | [] => none
  | c0 :: _ =>
    if c_isspace c0 then none
    else
      let sign : Int := if c0 = '-' then -1 else 1
      let body : List Char := if c0 = '-' || c0 = '+' then s.tail else s
      let digits := body.takeWhile c_isdigit
      let after := body.dropWhile c_isdigit
      if digits.isEmpty then none
      else if !after.isEmpty then none
      else
        let l : Int := sign * (digitsToNat digits : Int)
        if l > INT_MAX then none
        else if l < INT_MIN then none
        else some l

/-- The `getline` loop's view of the input file: the list of lines, each
without its terminating newline; a final line without a newline is still a
line, and a trailing newline does not create an extra empty line. -/
def splitLines : List Char → List (List Char)
  | [] => []
  | c :: rest =>
    if c = '\n' then [] :: splitLines rest
    else
      match splitLines rest with
      | [] => [[c]]
      | l :: ls => (c :: l) :: ls

/-- The parse phase of `sort_read_chunks`: `str2int` on every line, failing
on the first invalid line (`ret = false`). -/
def parseLines : List (List Char) → Option (List Int)
  | [] => some []
  | l :: ls =>
    match str2int l, parseLines ls with
    | some v, some vs => some (v :: vs)
    | _, _ => none

/-- The chunking of `sort_read_chunks`: the buffer fills to `buf_nmemb`
values and is flushed; a non-empty remainder forms the last chunk.
Fuel-structural; fuel `xs.length` suffices for `1 ≤ B`. -/
def chunkList (B : Nat) : Nat → List Int → List (List Int)
  | 0, _ => []
  | fuel + 1, xs => if xs.isEmpty then [] else xs.take B :: chunkList B fuel (xs.drop B)

/-- `sort_read_chunks` from main.c at the contents level: parse the input
text into values, cut them into buffers of `buf_nmemb`, and sort each buffer
with `pmsort_sort` (`sort_handle_buf`); `none` models `ret = false` (an
invalid line).  The resulting list holds the contents of the stage-0 temp
files `0_0 .. 0_{fcount-1}`. -/
def sort_read_chunks (buf_nmemb thr_count : Nat) (input : List Char) :
    Option (List (List Int)) :=
  match parseLines (splitLines input) with
  | none => none
  | some vals =>
    some ((chunkList buf_nmemb vals.length vals).map (fun c => pmsort_sort c thr_count))

/-- Digits of `n`, most significant first (`%d` rendering of the magnitude).
Fuel-structural; `fuel = n + 1` suffices. -/
def natDigits : Nat → Nat → List Char
  | 0, _ => []
  | fuel + 1, n =>
    if n = 0 then [] else natDigits fuel (n / 10) ++ [Char.ofNat (48 + n % 10)]

/-- `fprintf(fout, "%d\n", v)` without the newline: minus sign for negative
values, decimal digits without leading zeros, `"0"` for zero. -/
def intToText (v : Int) : List Char :=
  if v < 0 then '-' :: natDigits (v.natAbs + 1) v.natAbs
  else if v = 0 then ['0']
  else natDigits (v.toNat + 1) v.toNat

/-- The text `sort_write_output` would produce when every `fprintf`
succeeds: each value on its own newline-terminated line. -/
def renderValues (vs : List Int) : List Char :=
  (vs.map (fun v => intToText v ++ ['\n'])).flatten

/-- `sort_write_output` from main.c: serialize the merged values back over
the input file as text.  The function is `void` and never checks the result
of `fprintf`; a failing write (modelled as the file receiving only the first
`k` characters, `wshort = some k`) is silently ignored. -/
def sort_write_output (merged : List Int) (wshort : Option Nat) : List Char :=
  match wshort with
  | none => renderValues merged
  | some k => (renderValues merged).take k

/-- `sort_sort` from main.c at the contents level: ingest and sort the
chunks, K-way merge them, and write the result back.  Returns the reported
success flag and the final contents of the input file.  `wshort` is the
write-back failure oracle of `sort_write_output`; note the returned flag is
built before (and independently of) the write-back. -/
def sort_sort (buf_nmemb thr_count : Nat) (input : List Char)
    (wshort : Option Nat) : Bool × List Char :=
  match sort_read_chunks buf_nmemb thr_count input with
  | none => (false, input)
  | some chunks => (true, sort_write_output (kmerge_merge buf_nmemb chunks) wshort)

example : str2int ['4', '2'] = some 42 := by decide
example : str2int ['-', '7'] = some (-7) := by decide
example : str2int [' ', '7'] = none := by decide
example : str2int ['7', 'x'] = none := by decide
example : str2int ['2', '1', '4', '7', '4', '8', '3', '6', '4', '8'] = none := by decide
example : splitLines ['a', '\n', 'b'] = [['a'], ['b']] := by decide
example : splitLines ['a', '\n'] = [['a']] := by decide
example : renderValues [0, -3, 12] = ['0', '\n', '-', '3', '\n', '1', '2', '\n'] := by decide
example : sort_sort 34 1 ['2', '\n', '1', '\n'] none = (true, ['1', '\n', '2', '\n']) := by decide

/-! ### parse / format roundtrip -/

theorem str2int_range (s : List Char) (v : Int) (h : str2int s = some v) :
    INT_MIN ≤ v ∧ v ≤ INT_MAX := by
  match s with
  | [] => simp [str2int] at h
  | c0 :: rest =>
    simp only [str2int] at h
    repeat' split at h
    all_goals cases h
    all_goals simp only [INT_MAX, INT_MIN, gt_iff_lt, not_lt] at *
    all_goals omega

theorem digitsToNat_append (ds : List Char) (c : Char) :
    digitsToNat (ds ++ [c]) = 10 * digitsToNat ds + (c.toNat - 48) := by
  unfold digitsToNat
  rw [List.foldl_append]
  simp

theorem natDigits_digits (fuel : Nat) :
    ∀ n, ∀ c ∈ natDigits fuel n, c_isdigit c = true := by
  induction fuel with
  | zero => intro n c hc; simp [natDigits] at hc
  | succ fuel ih =>
    intro n c hc
    simp only [natDigits] at hc
    split at hc
    · simp at hc
    · rcases List.mem_append.mp hc with hm | hm
      · exact ih (n / 10) c hm
      · simp only [List.mem_singleton] at hm
        rw [hm]
        have h10 : n % 10 < 10 := Nat.mod_lt _ (by norm_num)
        set m := n % 10 with hm2
        interval_cases m <;> decide

theorem digitsToNat_natDigits (fuel : Nat) :
    ∀ n, n < fuel → digitsToNat (natDigits fuel n) = n := by
  induction fuel with
  | zero => intro n h; omega
  | succ fuel ih =>
    intro n h
    simp only [natDigits]
    split
    · rename_i h0
      simp [digitsToNat, h0]
    · rename_i h0
      rw [digitsToNat_append]
      have hlt : n / 10 < fuel := by omega
      rw [ih (n / 10) hlt]
      have h10 : n % 10 < 10 := Nat.mod_lt _ (by norm_num)
      have hchar : (Char.ofNat (48 + n % 10)).toNat = 48 + n % 10 := by
        set m := n % 10 with hm2
        interval_cases m <;> decide
      rw [hchar]
      omega

theorem natDigits_ne_nil (fuel n : Nat) (hn : n ≠ 0) (hfuel : 1 ≤ fuel) :
    natDigits fuel n ≠ [] := by
  match fuel, hfuel with
  | fuel + 1, _ =>
    simp only [natDigits]
    rw [if_neg hn]
    simp

theorem digit_ne_newline (c : Char) (hd : c_isdigit c = true) : c ≠ '\n' := by
  intro he
  rw [he] at hd
  exact absurd hd (by decide)

theorem digit_ne_minus (c : Char) (hd : c_isdigit c = true) : c ≠ '-' := by
  intro he
  rw [he] at hd
  exact absurd hd (by decide)

theorem digit_ne_plus (c : Char) (hd : c_isdigit c = true) : c ≠ '+' := by
  intro he
  rw [he] at hd
  exact absurd hd (by decide)

theorem digit_not_space (c : Char) (hd : c_isdigit c = true) : c_isspace c = false := by
  simp only [c_isdigit, Bool.and_eq_true, decide_eq_true_eq] at hd
  simp only [c_isspace, Bool.or_eq_false_iff, decide_eq_false_iff_not]
  obtain ⟨h1, h2⟩ := hd
  refine ⟨⟨⟨⟨⟨?_, ?_⟩, ?_⟩, ?_⟩, ?_⟩, ?_⟩ <;>
    · intro he
      rw [he] at h1 h2
      revert h1 h2
      decide

theorem intToText_chars (v : Int) :
    ∀ c ∈ intToText v, c = '-' ∨ c_isdigit c = true := by
  intro c hc
  unfold intToText at hc
  split at hc
  · rcases List.mem_cons.mp hc with h | h
    · exact Or.inl h
    · exact Or.inr (natDigits_digits _ _ c h)
  · split at hc
    · simp only [List.mem_singleton] at hc
      rw [hc]
      exact Or.inr (by decide)
    · exact Or.inr (natDigits_digits _ _ c hc)

theorem intToText_no_newline (v : Int) : ∀ c ∈ intToText v, c ≠ '\n' := by
  intro c hc
  rcases intToText_chars v c hc with h | h
  · rw [h]; decide
  · exact digit_ne_newline c h

theorem str2int_digits (D : List Char) (hD : ∀ c ∈ D, c_isdigit c = true)
    (hne : D ≠ []) (hhi : (digitsToNat D : Int) ≤ INT_MAX) :
    str2int D = some ((digitsToNat D : Nat) : Int) := by
  obtain ⟨c0, cs, rfl⟩ := List.exists_cons_of_ne_nil hne
  have hc0 : c_isdigit c0 = true := hD c0 (by simp)
  have ht : List.takeWhile c_isdigit (c0 :: cs) = c0 :: cs :=
    List.takeWhile_eq_self_iff.mpr hD
  have hd : List.dropWhile c_isdigit (c0 :: cs) = [] :=
    List.dropWhile_eq_nil_iff.mpr hD
  simp [str2int, digit_not_space c0 hc0, digit_ne_minus c0 hc0, digit_ne_plus c0 hc0,
    ht, hd]
  exact ⟨hhi, by simp only [INT_MIN]; omega⟩

theorem str2int_neg_digits (D : List Char) (hD : ∀ c ∈ D, c_isdigit c = true)
    (hne : D ≠ []) (hlo : INT_MIN ≤ -(digitsToNat D : Int)) :
    str2int ('-' :: D) = some (-(digitsToNat D : Int)) := by
  have ht : List.takeWhile c_isdigit D = D := List.takeWhile_eq_self_iff.mpr hD
  have hd : List.dropWhile c_isdigit D = [] := List.dropWhile_eq_nil_iff.mpr hD
  have hD0 : D.isEmpty = false := by simpa [List.isEmpty_iff] using hne
  simp [str2int, ht, hd, hD0]
  exact ⟨by decide, by simp only [INT_MAX]; omega, hlo⟩

theorem str2int_intToText (v : Int) (hlo : INT_MIN ≤ v) (hhi : v ≤ INT_MAX) :
    str2int (intToText v) = some v := by
  rcases lt_trichotomy v 0 with hv | hv | hv
  · have habs : 1 ≤ v.natAbs := by omega
    have hD := natDigits_digits (v.natAbs + 1) v.natAbs
    have hDne : natDigits (v.natAbs + 1) v.natAbs ≠ [] :=
      natDigits_ne_nil _ _ (by omega) (by omega)
    have hval : digitsToNat (natDigits (v.natAbs + 1) v.natAbs) = v.natAbs :=
      digitsToNat_natDigits _ _ (by omega)
    have he : intToText v = '-' :: natDigits (v.natAbs + 1) v.natAbs := by
      unfold intToText
      rw [if_pos hv]
    rw [he, str2int_neg_digits _ (fun c hc => hD c hc) hDne (by rw [hval]; omega)]
    rw [hval]
    congr 1
    omega
  · rw [hv]
    decide
  · have htn : 1 ≤ v.toNat := by omega
    have hD := natDigits_digits (v.toNat + 1) v.toNat
    have hDne : natDigits (v.toNat + 1) v.toNat ≠ [] :=
      natDigits_ne_nil _ _ (by omega) (by omega)
    have hval : digitsToNat (natDigits (v.toNat + 1) v.toNat) = v.toNat :=
      digitsToNat_natDigits _ _ (by omega)
    have he : intToText v = natDigits (v.toNat + 1) v.toNat := by
      unfold intToText
      rw [if_neg (by omega), if_neg (by omega)]
    rw [he, str2int_digits _ (fun c hc => hD c hc) hDne
      (by rw [hval]; simp only [INT_MAX] at hhi ⊢; omega)]
    rw [hval, Int.toNat_of_nonneg (le_of_lt hv)]

theorem splitLines_append (l rest : List Char) (hl : ∀ c ∈ l, c ≠ '\n') :
    splitLines (l ++ '\n' :: rest) = l :: splitLines rest := by
  induction l with
  | nil =>
    simp [splitLines]
  | cons c l ih =>
    have hc : c ≠ '\n' := hl c (by simp)
    have ih2 : splitLines (l ++ '\n' :: rest) = l :: splitLines rest :=
      ih (fun x hx => hl x (by simp [hx]))
    simp only [List.cons_append, splitLines, if_neg hc, List.append_eq, ih2]

theorem splitLines_renderValues (vs : List Int) :
    splitLines (renderValues vs) = vs.map intToText := by
  induction vs with
  | nil => rfl
  | cons v vs ih =>
    have he : renderValues (v :: vs) = intToText v ++ '\n' :: renderValues vs := by
      simp [renderValues]
    rw [he, splitLines_append _ _ (intToText_no_newline v), ih]
    rfl

theorem parseLines_map_intToText (vs : List Int)
    (h : ∀ v ∈ vs, INT_MIN ≤ v ∧ v ≤ INT_MAX) :
    parseLines (vs.map intToText) = some vs := by
  induction vs with
  | nil => rfl
  | cons v vs ih =>
    obtain ⟨h1, h2⟩ := h v (by simp)
    simp only [List.map_cons, parseLines, str2int_intToText v h1 h2,
      ih (fun x hx => h x (by simp [hx]))]

theorem parseLines_some (ls : List (List Char)) :
    ∀ vs, parseLines ls = some vs →
      vs.length = ls.length ∧ ∀ v ∈ vs, INT_MIN ≤ v ∧ v ≤ INT_MAX := by
  induction ls with
  | nil =>
    intro vs h
    simp only [parseLines, Option.some.injEq] at h
    subst h
    simp
  | cons l ls ih =>
    intro vs h
    simp only [parseLines] at h
    split at h
    · rename_i v vs2 hv hvs
      cases h
      obtain ⟨ihl, ihr⟩ := ih vs2 hvs
      refine ⟨by simp [ihl], ?_⟩
      intro x hx
      rcases List.mem_cons.mp hx with rfl | hx2
      · exact str2int_range l x hv
      · exact ihr x hx2
    · cases h

theorem chunkList_flatten (B : Nat) (hB : 1 ≤ B) :
    ∀ (fuel : Nat) (xs : List Int), xs.length ≤ fuel →
      (chunkList B fuel xs).flatten = xs := by
  intro fuel
  induction fuel with
  | zero =>
    intro xs h
    have h0 : xs = [] := List.length_eq_zero.mp (by omega)
    simp [chunkList, h0]
  | succ fuel ih =>
    intro xs h
    simp only [chunkList]
    split
    · rename_i h0
      simp [List.isEmpty_iff.mp h0]
    · rename_i h0
      have hxs : xs ≠ [] := by simpa [List.isEmpty_iff] using h0
      have hlen : (xs.drop B).length ≤ fuel := by
        rw [List.length_drop]
        have h1 : 1 ≤ xs.length := List.length_pos.mpr hxs
        omega
      rw [List.flatten_cons, ih (xs.drop B) hlen, List.take_append_drop]

theorem chunkList_mem_ne_nil (B : Nat) (hB : 1 ≤ B) :
    ∀ (fuel : Nat) (xs : List Int), ∀ c ∈ chunkList B fuel xs, c ≠ [] := by
  intro fuel
  induction fuel with
  | zero => intro xs c hc; simp [chunkList] at hc
  | succ fuel ih =>
    intro xs c hc
    simp only [chunkList] at hc
    split at hc
    · simp at hc
    · rename_i h0
      have hxs : xs ≠ [] := by simpa [List.isEmpty_iff] using h0
      rcases List.mem_cons.mp hc with rfl | hc2
      · intro he
        have h1 : 1 ≤ xs.length := List.length_pos.mpr hxs
        have h2 : (xs.take B).length = min B xs.length := List.length_take B xs
        rw [he] at h2
        simp at h2
        omega
      · exact ih (xs.drop B) c hc2

theorem chunkList_mem_sorted (B : Nat) :
    ∀ (fuel : Nat) (xs : List Int), xs.Sorted (· ≤ ·) →
      ∀ c ∈ chunkList B fuel xs, c.Sorted (· ≤ ·) := by
  intro fuel
  induction fuel with
  | zero => intro xs _ c hc; simp [chunkList] at hc
  | succ fuel ih =>
    intro xs hs c hc
    simp only [chunkList] at hc
    split at hc
    · simp at hc
    · rcases List.mem_cons.mp hc with rfl | hc2
      · exact hs.sublist (List.take_sublist B xs)
      · exact ih (xs.drop B) (hs.sublist (List.drop_sublist B xs)) c hc2

theorem chunkList_ne_nil (B : Nat) (fuel : Nat) (xs : List Int)
    (hxs : xs ≠ []) (hfuel : 1 ≤ fuel) : chunkList B fuel xs ≠ [] := by
  match fuel, hfuel with
  | fuel + 1, _ =>
    simp only [chunkList]
    rw [if_neg (by simpa [List.isEmpty_iff] using hxs)]
    simp

theorem flatten_map_perm (f : List Int → List Int) (cs : List (List Int))
    (h : ∀ c ∈ cs, (f c).Perm c) : ((cs.map f).flatten).Perm cs.flatten := by
  induction cs with
  | nil => simp
  | cons c cs ih =>
    simp only [List.map_cons, List.flatten_cons]
    exact (h c (by simp)).append (ih (fun x hx => h x (by simp [hx])))

/-! ### end-to-end runs of sort_sort -/

theorem sort_read_chunks_spec (B T : Nat) (input : List Char) (vals : List Int)
    (hB : 1 ≤ B) (hp : parseLines (splitLines input) = some vals) :
    sort_read_chunks B T input =
      some ((chunkList B vals.length vals).map (fun c => pmsort_sort c T)) ∧
    ((chunkList B vals.length vals).map (fun c => pmsort_sort c T)).flatten.Perm vals ∧
    (∀ f ∈ (chunkList B vals.length vals).map (fun c => pmsort_sort c T), f ≠ []) ∧
    (vals ≠ [] → (chunkList B vals.length vals).map (fun c => pmsort_sort c T) ≠ []) := by
  refine ⟨?_, ?_, ?_, ?_⟩
  · unfold sort_read_chunks
    rw [hp]
  · exact (flatten_map_perm _ _ (fun c _ => pmsort_sort_perm c T)).trans
      (List.Perm.of_eq (chunkList_flatten B hB vals.length vals le_rfl))
  · intro f hf
    obtain ⟨c, hc, rfl⟩ := List.mem_map.mp hf
    have h1 := pmsort_sort_perm c T
    have h2 := chunkList_mem_ne_nil B hB vals.length vals c hc
    intro he
    rw [he] at h1
    exact h2 h1.nil_eq.symm
  · intro hv hne
    exact chunkList_ne_nil B vals.length vals hv
      (by have := List.length_pos.mpr hv; omega) (List.map_eq_nil_iff.mp hne)

theorem sort_sort_success (B T : Nat) (input : List Char) (vals : List Int)
    (hB : NMERGE < B) (hp : parseLines (splitLines input) = some vals)
    (hv : vals ≠ []) (wshort : Option Nat) :
    (sort_sort B T input wshort).1 = true ∧
    ∃ merged : List Int, merged.Perm vals ∧
      (sort_sort B T input wshort).2 = sort_write_output merged wshort := by
  have hB1 : 1 ≤ B := by simp only [NMERGE] at hB; omega
  obtain ⟨hrc, hperm, hne, hnn⟩ := sort_read_chunks_spec B T input vals hB1 hp
  have hmp := kmerge_merge_perm B _ hB (hnn hv) hne
  unfold sort_sort
  rw [hrc]
  exact ⟨rfl, kmerge_merge B ((chunkList B vals.length vals).map
    (fun c => pmsort_sort c T)), hmp.trans hperm, rfl⟩

/-! ## Claim theorems -/

/-- C1: the spec claims every successful run of the sorter leaves the output
file's integer sequence in non-decreasing order.  This is false of the code:
on the five-line input `1 0 0 0 0` with three threads the run reports
success, yet the rewritten file holds `0, 0, 0, 1, 0`, which is not
non-decreasing — the chunk sorter's section cascade orphans the trailing
`len mod threads` elements. -/
theorem sort_sort_unsorted_successful_run :
    (sort_sort 34 3 ['1', '\n', '0', '\n', '0', '\n', '0', '\n', '0', '\n'] none).1
      = true ∧
    parseLines (splitLines
      (sort_sort 34 3 ['1', '\n', '0', '\n', '0', '\n', '0', '\n', '0', '\n'] none).2)
      = some [0, 0, 0, 1, 0] ∧
    ¬ ([0, 0, 0, 1, 0] : List Int).Sorted (· ≤ ·) :=
  ⟨by decide, by decide, by decide⟩

/-- C3: the spec claims `pmsort_sort` sorts every array of length ≥ 1 for
every thread count ≥ 1, the trailing `len mod T` elements being absorbed by
the cascade's right-boundary clamp.  This is false of the code: with
`len = 5`, `threads = 3` (so `npt = 1`, `offset = 2`) the clamp only lowers
`right`, the cascade never reaches the last two elements, and the result
`[0, 0, 0, 1, 0]` is unsorted (the output is still a permutation of the
input). -/
theorem pmsort_sort_cascade_orphans_tail :
    pmsort_sort [1, 0, 0, 0, 0] 3 = [0, 0, 0, 1, 0] ∧
    ¬ (pmsort_sort [1, 0, 0, 0, 0] 3).Sorted (· ≤ ·) ∧
    (pmsort_sort [1, 0, 0, 0, 0] 3).Perm [1, 0, 0, 0, 0] :=
  ⟨by decide, by decide, by decide⟩

/-- C4: a per-group K-way merge of `m` sorted non-empty files, `1 < m ≤ 16`,
produces a single sorted output whose length is the sum of the inputs'
lengths. -/
theorem kmerge_group_merge_sorted_sum (bs : Nat) (files : List (List Int))
    (hbs : 1 ≤ bs) (_hm1 : 1 < files.length) (hm : files.length ≤ NMERGE)
    (hne : ∀ f ∈ files, f ≠ []) (hsort : ∀ f ∈ files, f.Sorted (· ≤ ·)) :
    (kmerge_merge_files bs files).Sorted (· ≤ ·) ∧
    (kmerge_merge_files bs files).length = (files.map List.length).sum := by
  obtain ⟨hperm, _⟩ := kmerge_group_spec bs files hbs hm hne
  refine ⟨kmerge_group_sorted bs files hbs hm hne hsort, ?_⟩
  rw [hperm.length_eq, List.length_flatten]

theorem kmerge_group_merge_sorted_sum_witness :
    (1 ≤ 2 ∧ 1 < ([[1, 3], [2]] : List (List Int)).length ∧
      ([[1, 3], [2]] : List (List Int)).length ≤ NMERGE ∧
      (∀ f ∈ ([[1, 3], [2]] : List (List Int)), f ≠ []) ∧
      (∀ f ∈ ([[1, 3], [2]] : List (List Int)), f.Sorted (· ≤ ·))) ∧
    ((kmerge_merge_files 2 [[1, 3], [2]]).Sorted (· ≤ ·) ∧
      (kmerge_merge_files 2 [[1, 3], [2]]).length =
        (([[1, 3], [2]] : List (List Int)).map List.length).sum) :=
  ⟨⟨by decide, by decide, by decide, by decide, by decide⟩,
    kmerge_group_merge_sorted_sum 2 [[1, 3], [2]] (by decide) (by decide) (by decide)
      (by decide) (by decide)⟩

/-- C5: under their preconditions, `heap_insert` and `heap_pop` preserve the
min-heap invariant `arr[parent(i)].key ≤ arr[i].key`, and `heap_pop` returns
an element whose key is minimal among the keys stored in the heap. -/
theorem heap_insert_pop_contract (h : Heap) (el : heap_el) (hinv : HeapInv h) :
    (h.count < h.capacity → HeapInv (heap_insert h el)) ∧
    (0 < h.count →
      HeapInv (heap_pop h).2 ∧ ∀ e ∈ h.arr, (heap_pop h).1.key ≤ e.key) :=
  ⟨fun _ => heap_insert_heapinv h el hinv,
    fun _ => ⟨heap_pop_heapinv h hinv, heap_pop_min h hinv⟩⟩

theorem heap_insert_pop_contract_witness :
    HeapInv (⟨16, [⟨1, 0⟩, ⟨2, 1⟩]⟩ : Heap) ∧
    (((⟨16, [⟨1, 0⟩, ⟨2, 1⟩]⟩ : Heap).count < (⟨16, [⟨1, 0⟩, ⟨2, 1⟩]⟩ : Heap).capacity →
        HeapInv (heap_insert ⟨16, [⟨1, 0⟩, ⟨2, 1⟩]⟩ ⟨0, 2⟩)) ∧
      (0 < (⟨16, [⟨1, 0⟩, ⟨2, 1⟩]⟩ : Heap).count →
        HeapInv (heap_pop ⟨16, [⟨1, 0⟩, ⟨2, 1⟩]⟩).2 ∧
        ∀ e ∈ (⟨16, [⟨1, 0⟩, ⟨2, 1⟩]⟩ : Heap).arr,
          (heap_pop (⟨16, [⟨1, 0⟩, ⟨2, 1⟩]⟩ : Heap)).1.key ≤ e.key)) :=
  ⟨by decide, heap_insert_pop_contract ⟨16, [⟨1, 0⟩, ⟨2, 1⟩]⟩ ⟨0, 2⟩ (by decide)⟩

/-- C6: for `F0 ≥ 1` and `K = NMERGE = 16`, `kmerge_calc_stage_files`
computes `⌈F0 / 16^s⌉` at stage `s` and satisfies `F_{s+1} = ⌈F_s / 16⌉`;
`kmerge_calc_stages` computes `⌈log_16 F0⌉`; and the terminal stage holds
exactly one file. -/
theorem kmerge_stage_arithmetic (F0 : Nat) (hF : 1 ≤ F0) :
    (∀ s, kmerge_calc_stage_files F0 s = F0 ⌈/⌉ NMERGE ^ s) ∧
    (∀ s, kmerge_calc_stage_files F0 (s + 1) =
      kmerge_calc_stage_files F0 s ⌈/⌉ NMERGE) ∧
    (kmerge_calc_stages F0 : Int) = ⌈Real.logb (NMERGE : ℝ) (F0 : ℝ)⌉ ∧
    kmerge_calc_stage_files F0 (kmerge_calc_stages F0) = 1 := by
  refine ⟨?_, ?_, ?_, kmerge_calc_stages_terminal F0 hF⟩
  · intro s
    rw [kmerge_calc_stage_files_eq]
    rfl
  · intro s
    rw [kmerge_calc_stage_files_rec]
    rfl
  · rw [kmerge_calc_stages_eq_clog]
    have h16 : ((16 : Nat) : ℝ) = ((NMERGE : Nat) : ℝ) := by norm_num [NMERGE]
    rw [show ((NMERGE : Nat) : ℝ) = (((16 : Nat) : Nat) : ℝ) from by norm_num [NMERGE]]
    rw [Real.ceil_logb_natCast (by norm_num), Int.clog_natCast]

theorem kmerge_stage_arithmetic_witness :
    1 ≤ 20 ∧
    ((∀ s, kmerge_calc_stage_files 20 s = 20 ⌈/⌉ NMERGE ^ s) ∧
      (∀ s, kmerge_calc_stage_files 20 (s + 1) =
        kmerge_calc_stage_files 20 s ⌈/⌉ NMERGE) ∧
      (kmerge_calc_stages 20 : Int) = ⌈Real.logb (NMERGE : ℝ) ((20 : Nat) : ℝ)⌉ ∧
      kmerge_calc_stage_files 20 (kmerge_calc_stages 20) = 1) :=
  ⟨by decide, kmerge_stage_arithmetic 20 (by decide)⟩

/-- C7: throughout the pump loop of a per-group merge over `m ≤ 16` streams
the heap holds at most one pending element per stream, so its count never
exceeds `m ≤ 16 = NMERGE`, and every `heap_insert` call met its
`count < capacity` assertion (`aok` stays `true`). -/
theorem kmerge_heap_bounded (bs : Nat) (files : List (List Int)) (hbs : 1 ≤ bs)
    (hm : files.length ≤ NMERGE) (hne : ∀ f ∈ files, f ≠ []) (fuel : Nat) :
    (kmerge_loop bs fuel (kmerge_prime bs files)).queue.count ≤ files.length ∧
    (kmerge_loop bs fuel (kmerge_prime bs files)).queue.count ≤ NMERGE ∧
    (kmerge_loop bs fuel (kmerge_prime bs files)).aok = true := by
  obtain ⟨h1, h2⟩ := kmerge_pump_bound bs files hbs hm hne fuel
  exact ⟨h1, le_trans h1 hm, h2⟩

theorem kmerge_heap_bounded_witness :
    (1 ≤ 1 ∧ ([[1], [2]] : List (List Int)).length ≤ NMERGE ∧
      (∀ f ∈ ([[1], [2]] : List (List Int)), f ≠ [])) ∧
    ((kmerge_loop 1 2 (kmerge_prime 1 [[1], [2]])).queue.count ≤
        ([[1], [2]] : List (List Int)).length ∧
      (kmerge_loop 1 2 (kmerge_prime 1 [[1], [2]])).queue.count ≤ NMERGE ∧
      (kmerge_loop 1 2 (kmerge_prime 1 [[1], [2]])).aok = true) :=
  ⟨⟨by decide, by decide, by decide⟩,
    kmerge_heap_bounded 1 [[1], [2]] (by decide) (by decide) (by decide) 2⟩

/-- C2: every successful run of the sorter preserves the multiset of parsed
integers, and the output line count equals the input line count `n`. -/
theorem sort_sort_multiset_preserved (B T : Nat) (input : List Char)
    (vals : List Int) (hB : NMERGE < B)
    (hp : parseLines (splitLines input) = some vals) (hv : vals ≠ []) :
    (sort_sort B T input none).1 = true ∧
    ∃ out : List Int,
      parseLines (splitLines (sort_sort B T input none).2) = some out ∧
      out.Perm vals ∧
      (splitLines (sort_sort B T input none).2).length = (splitLines input).length := by
  obtain ⟨h1, merged, hmp, h2⟩ := sort_sort_success B T input vals hB hp hv none
  obtain ⟨hlen, hrange⟩ := parseLines_some (splitLines input) vals hp
  have hrm : ∀ v ∈ merged, INT_MIN ≤ v ∧ v ≤ INT_MAX :=
    fun v hvm => hrange v (hmp.mem_iff.mp hvm)
  have hout : (sort_sort B T input none).2 = renderValues merged := h2
  refine ⟨h1, merged, ?_, hmp, ?_⟩
  · rw [hout, splitLines_renderValues]
    exact parseLines_map_intToText merged hrm
  · rw [hout, splitLines_renderValues, List.length_map, hmp.length_eq, hlen]

theorem sort_sort_multiset_preserved_witness :
    (NMERGE < 34 ∧
      parseLines (splitLines ['1', '\n', '0', '\n']) = some [1, 0] ∧
      ([1, 0] : List Int) ≠ []) ∧
    ((sort_sort 34 1 ['1', '\n', '0', '\n'] none).1 = true ∧
      ∃ out : List Int,
        parseLines (splitLines (sort_sort 34 1 ['1', '\n', '0', '\n'] none).2) =
          some out ∧
        out.Perm [1, 0] ∧
        (splitLines (sort_sort 34 1 ['1', '\n', '0', '\n'] none).2).length =
          (splitLines ['1', '\n', '0', '\n']).length) :=
  ⟨⟨by decide, by decide, by decide⟩,
    sort_sort_multiset_preserved 34 1 ['1', '\n', '0', '\n'] [1, 0]
      (by decide) (by decide) (by decide)⟩

/-- C8: the spec claims a short write during write-back surfaces to the
orchestrator and makes `sort_sort` fail.  The code's `sort_write_output` is
`void` and ignores every `fprintf` result, so the reported flag is
independent of the write-back outcome: a run whose write-back is cut short
still reports success (see the counterexample theorem for a concrete run). -/
theorem sort_sort_ignores_writeback_failure (B T : Nat) (input : List Char)
    (k : Nat) :
    (sort_sort B T input (some k)).1 = (sort_sort B T input none).1 := by
  unfold sort_sort
  cases sort_read_chunks B T input <;> rfl

theorem sort_write_output_short_write_unreported :
    (sort_sort 34 1 ['2', '\n', '1', '\n'] (some 2)).1 = true ∧
    (sort_sort 34 1 ['2', '\n', '1', '\n'] (some 2)).2 ≠
      (sort_sort 34 1 ['2', '\n', '1', '\n'] none).2 :=
  ⟨by decide, by decide⟩

/-- C9: the spec claims running the sorter on an already-sorted file leaves
the file's bytes unchanged.  That holds only for canonically formatted
input: when every line is the `%d` rendering of its value and is
newline-terminated (`input = renderValues vals`), a run on sorted values
rewrites exactly the same bytes.  Non-canonical sorted text is reformatted
(see the counterexample theorem). -/
theorem sort_sort_noop_on_canonical_sorted (B T : Nat) (vals : List Int)
    (hB : NMERGE < B) (hv : vals ≠ []) (hsort : vals.Sorted (· ≤ ·))
    (hrange : ∀ v ∈ vals, INT_MIN ≤ v ∧ v ≤ INT_MAX) :
    sort_sort B T (renderValues vals) none = (true, renderValues vals) := by
  have hB1 : 1 ≤ B := by simp only [NMERGE] at hB; omega
  have hp : parseLines (splitLines (renderValues vals)) = some vals := by
    rw [splitLines_renderValues]
    exact parseLines_map_intToText vals hrange
  obtain ⟨hrc, hperm, hne, hnn⟩ := sort_read_chunks_spec B T (renderValues vals) vals hB1 hp
  have hcs : ∀ f ∈ (chunkList B vals.length vals).map (fun c => pmsort_sort c T),
      f.Sorted (· ≤ ·) := by
    intro f hf
    obtain ⟨c, hc, rfl⟩ := List.mem_map.mp hf
    have hsc : c.Sorted (· ≤ ·) := chunkList_mem_sorted B vals.length vals hsort c hc
    rw [pmsort_sort_eq_of_sorted T hsc]
    exact hsc
  obtain ⟨hmp, hms⟩ := kmerge_merge_spec B _ hB (hnn hv) hne hcs
  have hmv : kmerge_merge B ((chunkList B vals.length vals).map
      (fun c => pmsort_sort c T)) = vals :=
    List.eq_of_perm_of_sorted (hmp.trans hperm) hms hsort
  unfold sort_sort
  rw [hrc]
  simp only [sort_write_output, hmv]

theorem sort_sort_noop_on_canonical_sorted_witness :
    (NMERGE < 34 ∧ ([0, 2] : List Int) ≠ [] ∧
      ([0, 2] : List Int).Sorted (· ≤ ·) ∧
      (∀ v ∈ ([0, 2] : List Int), INT_MIN ≤ v ∧ v ≤ INT_MAX)) ∧
    sort_sort 34 1 (renderValues [0, 2]) none = (true, renderValues [0, 2]) :=
  ⟨⟨by decide, by decide, by decide, by decide⟩,
    sort_sort_noop_on_canonical_sorted 34 1 [0, 2] (by decide) (by decide)
      (by decide) (by decide)⟩

theorem sort_sort_reformats_noncanonical_sorted :
    parseLines (splitLines ['0', '0', '\n']) = some [0] ∧
    ([0] : List Int).Sorted (· ≤ ·) ∧
    (sort_sort 34 1 ['0', '0', '\n'] none).1 = true ∧
    (sort_sort 34 1 ['0', '0', '\n'] none).2 ≠ ['0', '0', '\n'] :=
  ⟨by decide, by decide, by decide, by decide⟩

/-- C10: on a non-empty input every temp file at every merge stage is
non-empty — stage-0 chunks are written only with `count ≥ 1` and merge
outputs of non-empty inputs stay non-empty — so the queue-priming step of a
per-group merge, which unconditionally pushes `buf[0]` of each input's first
window, always reads an element that was actually loaded
(`win.length ≥ 1`). -/
theorem stage_files_nonempty_priming_loaded (B T : Nat) (input : List Char)
    (vals : List Int) (hB : NMERGE < B)
    (hp : parseLines (splitLines input) = some vals) (hv : vals ≠ []) :
    ∃ chunks, sort_read_chunks B T input = some chunks ∧ chunks ≠ [] ∧
      (∀ f ∈ chunks, f ≠ []) ∧
      (∀ stage, ∀ f ∈ kmerge_merge_all (B / (NMERGE + 1)) stage chunks, f ≠ []) ∧
      (∀ fs : List (List Int), (∀ f ∈ fs, f ≠ []) →
        ∀ b ∈ (kmerge_prime (B / (NMERGE + 1)) fs).blocks, 1 ≤ b.win.length) := by
  have hB1 : 1 ≤ B := by simp only [NMERGE] at hB; omega
  have hbs : 1 ≤ B / (NMERGE + 1) := by
    apply Nat.one_le_div_iff (by norm_num [NMERGE]) |>.mpr
    simp only [NMERGE] at hB ⊢
    omega
  obtain ⟨hrc, _, hne, hnn⟩ := sort_read_chunks_spec B T input vals hB1 hp
  refine ⟨_, hrc, hnn hv, hne, ?_, ?_⟩
  · intro stage f hf
    obtain ⟨_, h2, _⟩ := kmerge_merge_all_perm (B / (NMERGE + 1)) hbs stage _ hne
    exact h2 f hf
  · intro fs hfs b hb
    have hblocks : (kmerge_prime (B / (NMERGE + 1)) fs).blocks =
        fs.map (fun f => ⟨f.take (B / (NMERGE + 1)), 1, f.drop (B / (NMERGE + 1))⟩) := by
      rw [kmerge_prime_eq, foldl_kpush_blocks]
    rw [hblocks] at hb
    obtain ⟨f, hf, rfl⟩ := List.mem_map.mp hb
    have hf1 : 1 ≤ f.length := List.length_pos.mpr (hfs f hf)
    simp only [List.length_take]
    omega

theorem stage_files_nonempty_priming_loaded_witness :
    (NMERGE < 34 ∧ parseLines (splitLines ['1', '\n']) = some [1] ∧
      ([1] : List Int) ≠ []) ∧
    (∃ chunks, sort_read_chunks 34 1 ['1', '\n'] = some chunks ∧ chunks ≠ [] ∧
      (∀ f ∈ chunks, f ≠ []) ∧
      (∀ stage, ∀ f ∈ kmerge_merge_all (34 / (NMERGE + 1)) stage chunks, f ≠ []) ∧
      (∀ fs : List (List Int), (∀ f ∈ fs, f ≠ []) →
        ∀ b ∈ (kmerge_prime (34 / (NMERGE + 1)) fs).blocks, 1 ≤ b.win.length)) :=
  ⟨⟨by decide, by decide, by decide⟩,
    stage_files_nonempty_priming_loaded 34 1 ['1', '\n'] [1]
      (by decide) (by decide) (by decide)⟩

end Filesort
